import Mathlib

/-! libdns-acme-dns: the record updater of `provider.go`

A shallow embedding of `provider.go` and of the parts of the Go standard
library its behaviour depends on (`unicode/utf8`, `regexp` for the one pattern
the provider compiles, `strings.HasPrefix`, `path.Join`/`path.Clean`,
`encoding/json` for the `UpdateBody` struct, `net/http` headers and requests,
`fmt.Errorf` with `%s` verbs).

A Go `string` is a sequence of bytes; a byte is a natural number below 256.
The HTTP transport behind `http.DefaultClient` and the URL parser behind
`http.NewRequestWithContext` are the environment: they are parameters of the
model (`Net`), so every theorem holds for every behaviour of the remote side.
-/

namespace AcmeDns

/-! ## Go strings -/

/-- A Go string: its bytes, each a number below 256. -/
abbrev GoString := List Nat

/-- The bytes of an ASCII literal of the source. -/
def lit (s : String) : GoString := s.toList.map Char.toNat

/-- The string made of `n` copies of the byte `b`. -/
def rep (n : Nat) (b : Nat) : GoString := List.replicate n b

/-! ## unicode/utf8 -/

/-- The rune `utf8.RuneError` (U+FFFD). -/
def RuneError : Nat := 0xFFFD

/-- The table `first` of `unicode/utf8` with `acceptRanges` resolved: for a
leading byte of a multi-byte sequence, the sequence's size and the accepted
range of the second byte; `none` for the bytes tagged `xx` (invalid) and for
ASCII, which `DecodeRuneInString` handles first. -/
def leadInfo (s0 : Nat) : Option (Nat × Nat × Nat) :=
  if 0xC2 ≤ s0 ∧ s0 ≤ 0xDF then some (2, 0x80, 0xBF)
  else if s0 = 0xE0 then some (3, 0xA0, 0xBF)
  else if 0xE1 ≤ s0 ∧ s0 ≤ 0xEC then some (3, 0x80, 0xBF)
  else if s0 = 0xED then some (3, 0x80, 0x9F)
  else if 0xEE ≤ s0 ∧ s0 ≤ 0xEF then some (3, 0x80, 0xBF)
  else if s0 = 0xF0 then some (4, 0x90, 0xBF)
  else if 0xF1 ≤ s0 ∧ s0 ≤ 0xF3 then some (4, 0x80, 0xBF)
  else if s0 = 0xF4 then some (4, 0x80, 0x8F)
  else none

/-- Go's `utf8.DecodeRuneInString`: the first rune of `s` and its width in
bytes; `(RuneError, 0)` for the empty string and `(RuneError, 1)` for an
invalid encoding. The masks `s0 & mask2`, `& mask3`, `& mask4`, `& maskx` are
written as remainders modulo 32, 16, 8 and 64, the shifts as products. -/
def DecodeRuneInString (s : GoString) : Nat × Nat :=
  match s with
  | [] => (RuneError, 0)
  | s0 :: rest =>
    if s0 < 0x80 then (s0, 1)
    else
      match leadInfo s0 with
      | none => (RuneError, 1)
      | some (sz, lo, hi) =>
        if s.length < sz then (RuneError, 1)
        else
          match rest with
          | [] => (RuneError, 1)
          | s1 :: rest1 =>
            if s1 < lo ∨ hi < s1 then (RuneError, 1)
            else if sz ≤ 2 then ((s0 % 32) * 64 + s1 % 64, 2)
            else
              match rest1 with
              | [] => (RuneError, 1)
              | s2 :: rest2 =>
                if s2 < 0x80 ∨ 0xBF < s2 then (RuneError, 1)
                else if sz ≤ 3 then ((s0 % 16) * 4096 + (s1 % 64) * 64 + s2 % 64, 3)
                else
                  match rest2 with
                  | [] => (RuneError, 1)
                  | s3 :: _ =>
                    if s3 < 0x80 ∨ 0xBF < s3 then (RuneError, 1)
                    else ((s0 % 8) * 262144 + (s1 % 64) * 4096 + (s2 % 64) * 64 + s3 % 64, 4)

/-- The runes of a string in order, each with the bytes it was decoded from:
the loop `for i := 0; i < len(s); i += size` over `DecodeRuneInString(s[i:])`.
The first argument counts the bytes of the current rune still to be stepped
over, so that the recursion is on the list of bytes (`runes_step` is the loop
as the source writes it). -/
def runesFrom : Nat → GoString → List (Nat × GoString)
  | _, [] => []
  | skip + 1, _ :: rest => runesFrom skip rest
  | 0, b :: rest =>
    let d := DecodeRuneInString (b :: rest)
    (d.1, (b :: rest).take d.2) :: runesFrom (d.2 - 1) rest

/-- The decoded runes of a string, as a `range` loop sees them. -/
def runes (s : GoString) : List (Nat × GoString) := runesFrom 0 s

/-- Go's `utf8.RuneCountInString`: the number of runes, an invalid byte
counting as one rune of width 1. -/
def RuneCountInString (s : GoString) : Nat := (runes s).length

/-- Go's `utf8.ValidString`: no position of the string decodes to an invalid
byte. -/
def ValidString (s : GoString) : Bool :=
  (runes s).all (fun x => !(x.1 == RuneError && x.2.length == 1))

/-! ## regexp, for the pattern of `sanitizeString` -/

/-- The character class `[A-Za-z\-\_0-9]` of the pattern, on runes. -/
def inClass (r : Nat) : Bool :=
  (65 ≤ r && r ≤ 90) || (97 ≤ r && r ≤ 122) || r == 45 || r == 95 || (48 ≤ r && r ≤ 57)

/-- Go's `(*Regexp).ReplaceAllString` for a pattern of the shape `[^C]+`, the
class `C` given by `cls`: every maximal run of runes outside the class is
replaced by `repl` (which holds no `$`), the other runes are copied byte for
byte. An invalid byte is the rune U+FFFD to the matcher. The flag tells
whether the previous rune was part of a match. -/
def replaceRuns (cls : Nat → Bool) (repl : GoString) : Bool → List (Nat × GoString) → GoString
  | _, [] => []
  | inRun, (r, bs) :: rest =>
    if cls r then bs ++ replaceRuns cls repl false rest
    else (if inRun then [] else repl) ++ replaceRuns cls repl true rest

/-! ## strings, fmt -/

/-- Go's `strings.HasPrefix`: `len(s) >= len(prefix) && s[:len(prefix)] == prefix`. -/
def HasPrefix (s pre : GoString) : Bool :=
  decide (s.length ≥ pre.length) && decide (s.take pre.length = pre)

/-- Go's `fmt.Sprintf` for a format whose only verbs are `%s` and whose
operands are strings, one for each verb: a `%s` is replaced by the next
operand, byte for byte. -/
def Sprintf : GoString → List GoString → GoString
  | [], _ => []
  | 37 :: 115 :: rest, a :: args => a ++ Sprintf rest args
  | c :: rest, args => c :: Sprintf rest args

/-- Go's `fmt.Errorf` under the same restriction; an `error` is modelled by its
message. -/
def Errorf (format : GoString) (args : List GoString) : GoString := Sprintf format args

/-! ## path -/

/-- The inner loop of the `..` case of `path.Clean`, entered after `out.w--`
with the decremented `out.w`:
`for out.w > dotdot && out.index(out.w) != '/' { out.w-- }`.
Returns the final `out.w`; `out` holds the bytes written so far. -/
def backtrack (out : GoString) (dotdot : Nat) : Nat → Nat
  | 0 => 0
  | w + 1 => if w + 1 > dotdot ∧ out.getD (w + 1) 0 ≠ 47 then backtrack out dotdot w else w + 1

/-- The main loop `for r < n` of `path.Clean`. `path` is the unread part
`path[r:]`, `out` the written part of the buffer (so `out.w` is `out.length`),
`dotdot` the index where `..` must stop. Every iteration reads at least one
byte, so a fuel of `len(path)` iterations is never used up
(`cleanLoop_fuel`). -/
def cleanLoop (rooted : Bool) : Nat → GoString → GoString → Nat → GoString
  | 0, _, out, _ => out
  | fuel + 1, path, out, dotdot =>
    match path with
    | [] => out
    | c :: rest =>
      if c = 47 then
        -- empty path element
        cleanLoop rooted fuel rest out dotdot
      else if c = 46 ∧ (rest = [] ∨ rest.head? = some 47) then
        -- . element
        cleanLoop rooted fuel rest out dotdot
      else if c = 46 ∧ rest.head? = some 46 ∧ (rest.tail = [] ∨ rest.tail.head? = some 47) then
        -- .. element: remove to last /
        if out.length > dotdot then
          cleanLoop rooted fuel rest.tail (out.take (backtrack out dotdot (out.length - 1))) dotdot
        else if !rooted then
          let out1 := if out.length > 0 then out ++ [47] else out
          let out2 := out1 ++ [46, 46]
          cleanLoop rooted fuel rest.tail out2 out2.length
        else cleanLoop rooted fuel rest.tail out dotdot
      else
        -- real path element: add slash if needed, copy element
        let out1 :=
          if (rooted && out.length != 1) || (!rooted && out.length != 0) then out ++ [47] else out
        cleanLoop rooted fuel ((c :: rest).dropWhile (· ≠ 47))
          (out1 ++ (c :: rest).takeWhile (· ≠ 47)) dotdot

/-- Go's `path.Clean`. -/
def Clean (path : GoString) : GoString :=
  if path = [] then [46]
  else
    let rooted := path.head? == some 47
    let out :=
      if rooted then cleanLoop true path.length path.tail [47] 1
      else cleanLoop false path.length path [] 0
    if out.length = 0 then [46] else out

/-- Go's `path.Join`: the non-empty elements joined by slashes, then cleaned;
the empty string when every element is empty. -/
def Join (elem : List GoString) : GoString :=
  let size := (elem.map List.length).sum
  if size = 0 then []
  else
    Clean (elem.foldl
      (fun buf e =>
        if buf.length > 0 ∨ e ≠ [] then (if buf.length > 0 then buf ++ [47] else buf) ++ e
        else buf) [])

/-! ## encoding/json, for `UpdateBody` -/

/-- The struct `UpdateBody` of `provider.go`; its fields are written under the
keys `subdomain` and `txt`. -/
structure UpdateBody where
  Subdomain : GoString
  Value : GoString
deriving DecidableEq

/-- The table `htmlSafeSet` of `encoding/json`: the ASCII bytes written
unescaped, that is 0x20 to 0x7f but for the double quote, `&`, `<`, `>` and
the backslash. -/
def htmlSafeSet (b : Nat) : Bool :=
  decide (0x20 ≤ b) && decide (b < 0x80) && b != 34 && b != 38 && b != 60 && b != 62 && b != 92

/-- The digit `hex[i]` of `encoding/json`, `hex` being `0123456789abcdef`. -/
def hexDigit (i : Nat) : Nat := if i < 10 then 48 + i else 87 + i

/-- What `appendString` of `encoding/json` (with `escapeHTML` set, as
`json.Marshal` does) writes for one rune of the source, given the rune and
the bytes it was decoded from. Backspace and form feed are written `\b` and
`\f`, as Go 1.22 and later do; earlier releases write `\u0008` and `\u000c`,
which denote the same characters. -/
def encodeRune (c : Nat) (bs : GoString) : GoString :=
  match bs with
  | [] => []
  | b :: _ =>
    if b < 0x80 then
      if htmlSafeSet b then [b]
      else if b = 92 ∨ b = 34 then [92, b]
      else if b = 8 then [92, 98]
      else if b = 12 then [92, 102]
      else if b = 10 then [92, 110]
      else if b = 13 then [92, 114]
      else if b = 9 then [92, 116]
      else [92, 117, 48, 48, hexDigit (b / 16), hexDigit (b % 16)]
    else if c = RuneError ∧ bs.length = 1 then lit "\\ufffd"
    else if c = 0x2028 ∨ c = 0x2029 then lit "\\u202" ++ [hexDigit (c % 16)]
    else bs

/-- The function `appendString` of `encoding/json` on an empty destination:
the JSON string literal for a Go string. The loop of the source steps through
the string rune by rune (an ASCII byte is a rune of width 1) and copies the
stretches it does not escape. -/
def appendString (src : GoString) : GoString :=
  [34] ++ ((runes src).map (fun x => encodeRune x.1 x.2)).flatten ++ [34]

/-- Go's `json.Marshal` on an `UpdateBody`: the two fields in declaration
order under their `json` tags. It cannot fail. -/
def Marshal (b : UpdateBody) : GoString :=
  lit "\x7b\"subdomain\":" ++ appendString b.Subdomain ++ lit ",\"txt\":" ++ appendString b.Value
    ++ lit "\x7d"

/-! ## net/http -/

/-- Go's `http.Header`: the values stored under each canonical key. -/
abbrev Header := List (GoString × List GoString)

/-- The predicate `validHeaderFieldByte` of `net/textproto`: the token
characters of RFC 7230. -/
def validHeaderFieldByte (c : Nat) : Bool :=
  (48 ≤ c && c ≤ 57) || (65 ≤ c && c ≤ 90) || (97 ≤ c && c ≤ 122) ||
    [33, 35, 36, 37, 38, 39, 42, 43, 45, 46, 94, 95, 96, 124, 126].contains c

/-- The second loop of `canonicalMIMEHeaderKey`: upper case for the first
letter and for a letter after a dash, lower case for the others. -/
def canonLoop : Bool → GoString → GoString
  | _, [] => []
  | upper, c :: rest =>
    let c1 :=
      if upper ∧ 97 ≤ c ∧ c ≤ 122 then c - 32
      else if ¬ upper ∧ 65 ≤ c ∧ c ≤ 90 then c + 32
      else c
    c1 :: canonLoop (c1 == 45) rest

/-- Go's `textproto.CanonicalMIMEHeaderKey`: a key holding a byte that is no
token character is returned unchanged. -/
def CanonicalMIMEHeaderKey (s : GoString) : GoString :=
  if s.all validHeaderFieldByte then canonLoop true s else s

/-- Go's `Header.Set`: the key is canonicalised and its values replaced. -/
def Header.Set (h : Header) (key value : GoString) : Header :=
  let k := CanonicalMIMEHeaderKey key
  (h.filter (fun kv => kv.1 != k)) ++ [(k, [value])]

/-- Go's `Header.Get`: the first value under the canonicalised key, or the
empty string. -/
def Header.Get (h : Header) (key : GoString) : GoString :=
  match h.lookup (CanonicalMIMEHeaderKey key) with
  | some (v :: _) => v
  | _ => []

/-- The fields of `http.Request` the provider sets or reads. `URL` is the
target the request was created with. `RequestURI` is the request line as a
server received it: `NewRequestWithContext` leaves it empty, and the client
refuses to send a request in which it is set. -/
structure Request where
  Method : GoString
  URL : GoString
  Header : Header
  Body : GoString
  RequestURI : GoString
deriving DecidableEq

/-- The fields of `http.Response` the provider reads: the status line, the
status code, and the request that was sent to obtain the response. -/
structure Response where
  Status : GoString
  StatusCode : Nat
  Request : Request
deriving DecidableEq

/-- The environment of a call. `parse url` is the error, if any, with which
`http.NewRequestWithContext` refuses the target (`url.Parse` failing, or a nil
context). `roundTrip req` is what the transport of `http.DefaultClient` does
with a request: an error, or the status line and status code of the
response. -/
structure Net where
  parse : GoString → Option GoString
  roundTrip : Request → Except GoString (GoString × Nat)

/-- Go's `http.NewRequestWithContext`: the method `POST` is always valid, so
the only failures are those of `Net.parse`. The new request has no header and
an empty `RequestURI`. -/
def NewRequestWithContext (net : Net) (method url body : GoString) : Except GoString Request :=
  match net.parse url with
  | some err => .error err
  | none => .ok { Method := method, URL := url, Header := [], Body := body, RequestURI := [] }

/-- Go's `http.DefaultClient.Do`: the transport's answer, with the sent
request recorded in the response. (After a redirect the recorded request is
the last one the client made; its `RequestURI` is empty as well.) -/
def Do (net : Net) (req : Request) : Except GoString Response :=
  match net.roundTrip req with
  | .error err => .error err
  | .ok (status, code) => .ok { Status := status, StatusCode := code, Request := req }

/-! ## provider.go -/

/-- The struct `libdns.Record` (libdns v0.2): the provider reads `Type`, `Name`
and `Value`. -/
structure Record where
  ID : GoString
  Type_ : GoString
  Name : GoString
  Value : GoString
  TTL : Int
deriving DecidableEq

/-- The struct `Provider` of `provider.go`. -/
structure Provider where
  Endpoint : GoString
  Username : GoString
  Password : GoString
  Subdomain : GoString
deriving DecidableEq

/-- What a call of a provider method gives: the two Go results (a nil slice is
the empty list, a nil error is `none`) and the requests handed to
`http.DefaultClient.Do` during the call. -/
structure Outcome where
  records : List Record
  err : Option GoString
  sent : List Request
deriving DecidableEq

/-- The method `GetRecords` of `provider.go`. -/
def GetRecords (_net : Net) (_p : Provider) (_zone : GoString) : Outcome :=
  { records := [], err := some (Errorf (lit "not implemented") []), sent := [] }

/-- The function `sanitizeString` of `provider.go`:
`regexp.Compile("[^A-Za-z\\-\\_0-9]+")` then `ReplaceAllString(s, "")`. -/
def sanitizeString (s : GoString) : GoString :=
  replaceRuns inClass [] false (runes s)

/-- The function `validTXT` of `provider.go`. -/
def validTXT (s : GoString) : Bool :=
  let sn := sanitizeString s
  if RuneCountInString s = 43 ∧ RuneCountInString sn = 43 then true else false

/-- The method `updateRecords` of `provider.go`. The `match` reads
`records[0]`; its first arm is never reached, the length being 1. The error
of `json.Marshal`, which the source drops, cannot occur for this struct. -/
def updateRecords (net : Net) (p : Provider) (_zone : GoString) (records : List Record) :
    Outcome :=
  if records.length ≠ 1 then
    { records := [], err := some (Errorf (lit "not implemented") []), sent := [] }
  else
    match records with
    | [] => { records := [], err := some (Errorf (lit "not implemented") []), sent := [] }
    | rec :: _ =>
      if rec.Type_ ≠ lit "TXT" ∨ !HasPrefix rec.Name (lit "_acme_challenge") ∨
          !validTXT rec.Value then
        { records := [], err := some (Errorf (lit "not implemented") []), sent := [] }
      else
        let body := Marshal { Subdomain := p.Subdomain, Value := rec.Value }
        match NewRequestWithContext net (lit "POST") (Join [p.Endpoint, lit "update"]) body with
        | .error err => { records := [], err := some err, sent := [] }
        | .ok request =>
          let request := { request with
            Header := request.Header.Set (lit "content-type") (lit "application/json") }
          let request := { request with
            Header := request.Header.Set (lit "x-api-user") p.Username }
          let request := { request with
            Header := request.Header.Set (lit "x-api-key") p.Password }
          match Do net request with
          | .error err => { records := [], err := some err, sent := [request] }
          | .ok response =>
            if response.StatusCode ≠ 200 then
              { records := [],
                err := some (Errorf
                  (lit "acme-dns update failed: POST %s, subdomain: %s, value: %s  %s")
                  [response.Request.RequestURI, p.Subdomain, rec.Value, response.Status]),
                sent := [request] }
            else { records := records, err := none, sent := [request] }

/-- The method `AppendRecords` of `provider.go`. -/
def AppendRecords (net : Net) (p : Provider) (zone : GoString) (records : List Record) :
    Outcome :=
  updateRecords net p zone records

/-- The method `SetRecords` of `provider.go`. -/
def SetRecords (net : Net) (p : Provider) (zone : GoString) (records : List Record) :
    Outcome :=
  updateRecords net p zone records

/-- The method `DeleteRecords` of `provider.go`. -/
def DeleteRecords (_net : Net) (_p : Provider) (_zone : GoString) (_records : List Record) :
    Outcome :=
  { records := [], err := none, sent := [] }

/-! ## Notions used in the statements

The request a valid batch leads to, the invariant of `path.Clean`, and what a
JSON string literal denotes (RFC 8259), against which the body is read back. -/

/-- A rune together with the bytes it was decoded from. -/
def IsDecoded (x : Nat × GoString) : Prop :=
  ∃ b rest, x = ((DecodeRuneInString (b :: rest)).1,
    (b :: rest).take (DecodeRuneInString (b :: rest)).2)

/-- The request `updateRecords` builds for a provider and a TXT value, after
its three `Header.Set` calls. -/
def updateRequest (p : Provider) (value : GoString) : Request :=
  { Method := lit "POST", URL := Join [p.Endpoint, lit "update"],
    Header := Header.Set (Header.Set (Header.Set [] (lit "content-type")
      (lit "application/json")) (lit "x-api-user") p.Username) (lit "x-api-key") p.Password,
    Body := Marshal { Subdomain := p.Subdomain, Value := value },
    RequestURI := [] }

/-- The relation between neighbouring bytes of a string without `//`. -/
def NotBothSlash (a b : Nat) : Prop := ¬ (a = 47 ∧ b = 47)

/-- The invariant of the loop of `path.Clean` on its buffer and on `dotdot`:
the buffer holds no `//`; it ends in a slash only when it is the root `/`;
`dotdot` lies within the buffer, and cutting the buffer there leaves no
trailing slash either; a rooted buffer starts with the slash, which `dotdot`
protects. -/
structure CleanInv (rooted : Bool) (out : GoString) (dotdot : Nat) : Prop where
  chain : out.Chain' NotBothSlash
  last : out.getLast? = some 47 → rooted = true ∧ out = [47]
  le : dotdot ≤ out.length
  stop : (out.take dotdot).getLast? = some 47 → rooted = true ∧ dotdot = 1
  root : rooted = true → out.head? = some 47 ∧ 1 ≤ dotdot

/-- The value of a hexadecimal digit. -/
def hexVal (d : Nat) : Option Nat :=
  if 48 ≤ d ∧ d ≤ 57 then some (d - 48)
  else if 97 ≤ d ∧ d ≤ 102 then some (d - 87)
  else if 65 ≤ d ∧ d ≤ 70 then some (d - 55)
  else none

/-- The UTF-8 encoding of a code point below 0x10000. -/
def encodeBMP (v : Nat) : GoString :=
  if v < 0x80 then [v]
  else if v < 0x800 then [0xC0 + v / 64, 0x80 + v % 64]
  else [0xE0 + v / 4096, 0x80 + v / 64 % 64, 0x80 + v % 64]

/-- The character a two-character escape of JSON stands for (RFC 8259,
section 7). -/
def simpleEscape (e : Nat) : Option Nat :=
  if e = 34 then some 34
  else if e = 92 then some 92
  else if e = 47 then some 47
  else if e = 98 then some 8
  else if e = 102 then some 12
  else if e = 110 then some 10
  else if e = 114 then some 13
  else if e = 116 then some 9
  else none

/-- The string a JSON string literal denotes, read from behind its opening
quote to its closing quote, which must end the input (RFC 8259, section 7):
an unescaped byte stands for itself, a two-character escape for its
character, `\uXXXX` for the UTF-8 encoding of the code point. Escaped
surrogates are refused. -/
def unescape : GoString → Option GoString
  | [] => none
  | c :: rest =>
    if c = 34 then (if rest = [] then some [] else none)
    else if c = 92 then
      match rest with
      | [] => none
      | 117 :: h1 :: h2 :: h3 :: h4 :: rest1 =>
        match hexVal h1, hexVal h2, hexVal h3, hexVal h4 with
        | some a, some b, some c1, some d =>
          let v := ((a * 16 + b) * 16 + c1) * 16 + d
          if 0xD800 ≤ v ∧ v ≤ 0xDFFF then none
          else (unescape rest1).map (encodeBMP v ++ ·)
        | _, _, _, _ => none
      | e :: rest1 =>
        match simpleEscape e with
        | some b => (unescape rest1).map (b :: ·)
        | none => none
    else if c < 0x20 then none
    else (unescape rest).map (c :: ·)

/-- The string a JSON string literal denotes. -/
def jsonStringValue (l : GoString) : Option GoString :=
  match l with
  | 34 :: rest => unescape rest
  | _ => none

/-- The bytes a decoded rune stands for once invalid bytes are replaced by
U+FFFD. -/
def coerceRune (x : Nat × GoString) : GoString :=
  if x.1 = RuneError ∧ x.2.length = 1 then [0xEF, 0xBF, 0xBD] else x.2

/-- A string with every invalid byte replaced by the encoding of U+FFFD. -/
def coerceUTF8 (s : GoString) : GoString := ((runes s).map coerceRune).flatten

/-! ## Example inputs -/

/-- An environment in which every target is accepted and every request is
answered with the given status code and status line. -/
def answering (code : Nat) (status : GoString) : Net :=
  { parse := fun _ => none, roundTrip := fun _ => .ok (status, code) }

/-- A provider configured with the endpoint `https://example.com`. -/
def exampleProvider : Provider :=
  { Endpoint := lit "https://example.com", Username := lit "user", Password := lit "secret",
    Subdomain := lit "sub" }

/-- A TXT record named `_acme_challenge.example` whose value is 43 letters `a`. -/
def exampleRecord : Record :=
  { ID := [], Type_ := lit "TXT", Name := lit "_acme_challenge.example", Value := rep 43 97,
    TTL := 0 }

/-- A provider whose subdomain is the single byte 0xff, which is not valid
UTF-8. -/
def invalidSubdomainProvider : Provider :=
  { Endpoint := lit "https://example.com", Username := lit "user", Password := lit "secret",
    Subdomain := [0xff] }

/-! # Theorems -/

set_option maxRecDepth 100000

/-! ## The model on known values of the library -/

/-- The model of `path.Clean` on the cases of the library's own test table. -/
theorem Clean_examples :
    ([("", "."), ("abc", "abc"), ("abc/def", "abc/def"), ("a/b/c", "a/b/c"), (".", "."),
      ("..", ".."), ("../..", "../.."), ("../../abc", "../../abc"), ("/abc", "/abc"),
      ("/", "/"), ("abc/", "abc"), ("abc/def/", "abc/def"), ("a/b/c/", "a/b/c"), ("./", "."),
      ("../", ".."), ("../../", "../.."), ("/abc/", "/abc"),
      ("abc//def//ghi", "abc/def/ghi"), ("//abc", "/abc"), ("///abc", "/abc"),
      ("//abc//", "/abc"), ("abc//", "abc"), ("abc/./def", "abc/def"),
      ("/./abc/def", "/abc/def"), ("abc/.", "abc"), ("abc/def/ghi/../jkl", "abc/def/jkl"),
      ("abc/def/../ghi/../jkl", "abc/jkl"), ("abc/def/..", "abc"), ("abc/def/../..", "."),
      ("/abc/def/../..", "/"), ("abc/def/../../..", ".."), ("/abc/def/../../..", "/"),
      ("abc/def/../../../ghi/jkl/../../../mno", "../../mno"), ("abc/./../def", "def"),
      ("abc//./../def", "def"), ("abc/../../././../def", "../../def")] :
        List (String × String)).all
      (fun t => Clean (lit t.1) == lit t.2) = true := by
  decide

/-- The model of `path.Join` on the cases of the library's own test table. -/
theorem Join_examples :
    ([([], ""), ([""], ""), (["a"], "a"), (["a", "b"], "a/b"), (["a", ""], "a"),
      (["", "b"], "b"), (["/", "a"], "/a"), (["/", ""], "/"), (["a/", "b"], "a/b"),
      (["a/", ""], "a"), (["", ""], "")] : List (List String × String)).all
      (fun t => Join (t.1.map lit) == lit t.2) = true := by
  decide

/-- The model of `utf8.DecodeRuneInString` on well-formed and ill-formed
sequences: the euro sign, a lone continuation byte, an overlong form, an
encoded surrogate, a truncated sequence, the last code point, and a value
beyond it. -/
theorem DecodeRuneInString_examples :
    DecodeRuneInString [0xE2, 0x82, 0xAC, 0x41] = (0x20AC, 3) ∧
    DecodeRuneInString [0x80, 0x41] = (RuneError, 1) ∧
    DecodeRuneInString [0xC0, 0x80] = (RuneError, 1) ∧
    DecodeRuneInString [0xED, 0xA0, 0x80] = (RuneError, 1) ∧
    DecodeRuneInString [0xE2, 0x82] = (RuneError, 1) ∧
    DecodeRuneInString [0xF4, 0x8F, 0xBF, 0xBF] = (0x10FFFF, 4) ∧
    DecodeRuneInString [0xF4, 0x90, 0x80, 0x80] = (RuneError, 1) ∧
    DecodeRuneInString [0xEF, 0xBF, 0xBD] = (RuneError, 3) ∧
    DecodeRuneInString [] = (RuneError, 0) := by
  decide

/-- The model of `appendString` on a string with a quote, a backslash, a
newline, a control character, `<`, a two-byte character, U+2028 and an
invalid byte. -/
theorem appendString_examples :
    appendString (lit "a\"b\\c\nd" ++ [1] ++ lit "<" ++ [0xC3, 0xA9, 0xE2, 0x80, 0xA8, 0xff]) =
      lit "\"a\\\"b\\\\c\\nd\\u0001\\u003c" ++ [0xC3, 0xA9] ++ lit "\\u2028\\ufffd\"" ∧
    CanonicalMIMEHeaderKey (lit "content-type") = lit "Content-Type" ∧
    CanonicalMIMEHeaderKey (lit "x-api-user") = lit "X-Api-User" ∧
    CanonicalMIMEHeaderKey (lit "x-api-key") = lit "X-Api-Key" ∧
    CanonicalMIMEHeaderKey (lit "x api") = lit "x api" := by
  decide

/-! ## Decoding UTF-8 -/

/-- What the table says of a leading byte. -/
theorem leadInfo_some (b sz lo hi : Nat) (h : leadInfo b = some (sz, lo, hi)) :
    (sz = 2 ∧ 0xC2 ≤ b ∧ b ≤ 0xDF ∧ lo = 0x80 ∧ hi = 0xBF) ∨
    (sz = 3 ∧ 0xE0 ≤ b ∧ b ≤ 0xEF ∧ 0x80 ≤ lo ∧ hi ≤ 0xBF ∧ (b = 0xE0 → lo = 0xA0)) ∨
    (sz = 4 ∧ 0xF0 ≤ b ∧ b ≤ 0xF4 ∧ 0x80 ≤ lo ∧ hi ≤ 0xBF ∧ (b = 0xF0 → lo = 0x90)) := by
  unfold leadInfo at h
  split_ifs at h <;> simp only [Option.some.injEq, Prod.mk.injEq, reduceCtorEq] at h <;> omega

/-- The five ways `DecodeRuneInString` answers on a non-empty string: an ASCII
byte, an invalid byte, or a well-formed sequence of two, three or four bytes. -/
theorem decode_cases (b : Nat) (rest : GoString) :
    (b < 128 ∧ DecodeRuneInString (b :: rest) = (b, 1)) ∨
    (128 ≤ b ∧ DecodeRuneInString (b :: rest) = (RuneError, 1)) ∨
    (∃ s1 r, rest = s1 :: r ∧ 0xC2 ≤ b ∧ b ≤ 0xDF ∧ 0x80 ≤ s1 ∧ s1 ≤ 0xBF ∧
      DecodeRuneInString (b :: rest) = (b % 32 * 64 + s1 % 64, 2)) ∨
    (∃ s1 s2 r, rest = s1 :: s2 :: r ∧ 0xE0 ≤ b ∧ b ≤ 0xEF ∧ 0x80 ≤ s1 ∧ s1 ≤ 0xBF ∧
      (b = 0xE0 → 0xA0 ≤ s1) ∧ 0x80 ≤ s2 ∧ s2 ≤ 0xBF ∧
      DecodeRuneInString (b :: rest) = (b % 16 * 4096 + s1 % 64 * 64 + s2 % 64, 3)) ∨
    (∃ s1 s2 s3 r, rest = s1 :: s2 :: s3 :: r ∧ 0xF0 ≤ b ∧ b ≤ 0xF4 ∧ 0x80 ≤ s1 ∧ s1 ≤ 0xBF ∧
      (b = 0xF0 → 0x90 ≤ s1) ∧ 0x80 ≤ s2 ∧ s2 ≤ 0xBF ∧ 0x80 ≤ s3 ∧ s3 ≤ 0xBF ∧
      DecodeRuneInString (b :: rest) =
        (b % 8 * 262144 + s1 % 64 * 4096 + s2 % 64 * 64 + s3 % 64, 4)) := by
  by_cases hb : b < 128
  · left; exact ⟨hb, by simp [DecodeRuneInString, hb]⟩
  · right
    have hb' : 128 ≤ b := by omega
    cases hL : leadInfo b with
    | none => left; exact ⟨hb', by simp [DecodeRuneInString, hb, hL]⟩
    | some t =>
      obtain ⟨sz, lo, hi⟩ := t
      rcases leadInfo_some b sz lo hi hL with ⟨rfl, h1, h2, h3, h4⟩ | ⟨rfl, h1, h2, h3, h4, h5⟩ |
        ⟨rfl, h1, h2, h3, h4, h5⟩
      · rcases rest with _ | ⟨s1, r⟩
        · left; exact ⟨hb', by simp [DecodeRuneInString, hb, hL]⟩
        · by_cases hs : s1 < lo ∨ hi < s1
          · left; exact ⟨hb', by simp [DecodeRuneInString, hb, hL, hs]⟩
          · right; left
            exact ⟨s1, r, rfl, h1, h2, by omega, by omega,
              by simp [DecodeRuneInString, hb, hL, hs]⟩
      · rcases rest with _ | ⟨s1, _ | ⟨s2, r⟩⟩
        · left; exact ⟨hb', by simp [DecodeRuneInString, hb, hL]⟩
        · left; exact ⟨hb', by simp [DecodeRuneInString, hb, hL]⟩
        · by_cases hs : s1 < lo ∨ hi < s1
          · left; exact ⟨hb', by simp [DecodeRuneInString, hb, hL, hs]⟩
          · by_cases hs2 : s2 < 128 ∨ 191 < s2
            · left; exact ⟨hb', by simp [DecodeRuneInString, hb, hL, hs, hs2]⟩
            · right; right; left
              exact ⟨s1, s2, r, rfl, h1, h2, by omega, by omega, by omega, by omega, by omega,
                by simp [DecodeRuneInString, hb, hL, hs, hs2]⟩
      · rcases rest with _ | ⟨s1, _ | ⟨s2, _ | ⟨s3, r⟩⟩⟩
        · left; exact ⟨hb', by simp [DecodeRuneInString, hb, hL]⟩
        · left; exact ⟨hb', by simp [DecodeRuneInString, hb, hL]⟩
        · left; exact ⟨hb', by simp [DecodeRuneInString, hb, hL]⟩
        · by_cases hs : s1 < lo ∨ hi < s1
          · left; exact ⟨hb', by simp [DecodeRuneInString, hb, hL, hs]⟩
          · by_cases hs2 : s2 < 128 ∨ 191 < s2
            · left; exact ⟨hb', by simp [DecodeRuneInString, hb, hL, hs, hs2]⟩
            · by_cases hs3 : s3 < 128 ∨ 191 < s3
              · left; exact ⟨hb', by simp [DecodeRuneInString, hb, hL, hs, hs2, hs3]⟩
              · right; right; right
                exact ⟨s1, s2, s3, r, rfl, h1, h2, by omega, by omega, by omega, by omega,
                  by omega, by omega, by omega,
                  by simp [DecodeRuneInString, hb, hL, hs, hs2, hs3]⟩

/-- On a non-empty string the decoder consumes at least one byte. -/
theorem decode_size_pos (b : Nat) (rest : GoString) :
    1 ≤ (DecodeRuneInString (b :: rest)).2 := by
  rcases decode_cases b rest with ⟨_, h⟩ | ⟨_, h⟩ | ⟨_, _, _, _, _, _, _, h⟩ |
    ⟨_, _, _, _, _, _, _, _, _, _, _, h⟩ | ⟨_, _, _, _, _, _, _, _, _, _, _, _, _, _, h⟩ <;>
  simp [h]

/-- Stepping over `k` bytes and decoding on is decoding what is left after
`k` bytes. -/
theorem runesFrom_drop (s : GoString) : ∀ k : Nat, runesFrom k s = runes (s.drop k) := by
  induction s with
  | nil => intro k; cases k <;> simp [runes, runesFrom]
  | cons b rest ih =>
    intro k
    cases k with
    | zero => rfl
    | succ k => simp [runesFrom, ih]

/-- The rune loop as the source writes it: decode the first rune, then go on
`size` bytes further. -/
theorem runes_step (b : Nat) (rest : GoString) :
    runes (b :: rest) =
      ((DecodeRuneInString (b :: rest)).1,
          (b :: rest).take (DecodeRuneInString (b :: rest)).2) ::
        runes ((b :: rest).drop (DecodeRuneInString (b :: rest)).2) := by
  have hp := decode_size_pos b rest
  obtain ⟨n, hn⟩ : ∃ n, (DecodeRuneInString (b :: rest)).2 = n + 1 :=
    ⟨(DecodeRuneInString (b :: rest)).2 - 1, by omega⟩
  show runesFrom 0 (b :: rest) = _
  simp only [runesFrom, hn, Nat.add_sub_cancel, List.drop_succ_cons]
  rw [runesFrom_drop]

/-- Every entry of the rune loop is a decoded rune with its bytes. -/
theorem runesFrom_decoded (s : GoString) :
    ∀ (k : Nat) (x : Nat × GoString), x ∈ runesFrom k s → IsDecoded x := by
  induction s with
  | nil => intro k x hx; cases k <;> simp [runesFrom] at hx
  | cons b rest ih =>
    intro k x hx
    cases k with
    | zero =>
      simp only [runesFrom, List.mem_cons] at hx
      rcases hx with rfl | hx
      · exact ⟨b, rest, rfl⟩
      · exact ih _ x hx
    | succ k => exact ih k x (by simpa [runesFrom] using hx)

/-- The bytes of the runes, put together, are the string again. -/
theorem runesFrom_flatten (s : GoString) :
    ∀ k : Nat, ((runesFrom k s).map Prod.snd).flatten = s.drop k := by
  induction s with
  | nil => intro k; cases k <;> simp [runesFrom]
  | cons b rest ih =>
    intro k
    cases k with
    | zero =>
      have hp := decode_size_pos b rest
      simp only [runesFrom, List.map_cons, List.flatten_cons, ih, List.drop_zero]
      obtain ⟨n, hn⟩ : ∃ n, (DecodeRuneInString (b :: rest)).2 = n + 1 :=
        ⟨(DecodeRuneInString (b :: rest)).2 - 1, by omega⟩
      rw [hn]
      simp
    | succ k => simp [runesFrom, ih]

/-- A decoded rune below 128 was decoded from the one byte that equals it. -/
theorem decoded_ascii (x : Nat × GoString) (hx : IsDecoded x) (h : x.1 < 128) : x.2 = [x.1] := by
  obtain ⟨b, rest, rfl⟩ := hx
  rcases decode_cases b rest with ⟨_, e⟩ | ⟨_, e⟩ | ⟨_, _, _, _, _, _, _, e⟩ |
    ⟨_, _, _, _, _, _, _, _, _, _, _, e⟩ | ⟨_, _, _, _, _, _, _, _, _, _, _, _, _, _, e⟩ <;>
  rw [e] at h ⊢ <;> simp [RuneError] at h ⊢ <;> omega

/-- An ASCII string decodes byte by byte. -/
theorem runesFrom_ascii (s : GoString) (h : ∀ b ∈ s, b < 128) :
    runesFrom 0 s = s.map (fun b => (b, [b])) := by
  induction s with
  | nil => rfl
  | cons b rest ih =>
    have hb : b < 128 := h b (by simp)
    have e : DecodeRuneInString (b :: rest) = (b, 1) := by simp [DecodeRuneInString, hb]
    simp only [runesFrom, e, List.map_cons]
    rw [ih (fun c hc => h c (by simp [hc]))]
    simp

/-- An ASCII string has as many runes as bytes. -/
theorem runeCount_ascii (s : GoString) (h : ∀ b ∈ s, b < 128) : RuneCountInString s = s.length := by
  unfold RuneCountInString runes
  rw [runesFrom_ascii s h]; simp

/-! ## `sanitizeString` and `validTXT` -/

/-- The class holds ASCII only. -/
theorem inClass_lt (r : Nat) (h : inClass r = true) : r < 128 := by
  simp [inClass] at h
  omega

/-- With the empty replacement, what is left is the bytes of the runes of the
class. -/
theorem replaceRuns_nil (rs : List (Nat × GoString)) :
    ∀ f : Bool, replaceRuns inClass [] f rs =
      ((rs.filter (fun x => inClass x.1)).map Prod.snd).flatten := by
  induction rs with
  | nil => intro f; rfl
  | cons x rs ih =>
    intro f
    obtain ⟨r, bs⟩ := x
    by_cases hc : inClass r = true
    · simp [replaceRuns, hc, ih]
    · simp [replaceRuns, hc, ih]

/-- A string all of whose runes are of the class is ASCII of the class. -/
theorem runes_all_inClass (s : GoString) (h : ∀ x ∈ runes s, inClass x.1 = true) :
    runes s = s.map (fun b => (b, [b])) ∧ ∀ b ∈ s, inClass b = true := by
  have hsnd : ∀ x ∈ runes s, x.2 = [x.1] := fun x hx =>
    decoded_ascii x (runesFrom_decoded s 0 x hx) (inClass_lt _ (h x hx))
  have hfl : ∀ l : List (Nat × GoString), (l.map (fun x => [x.1])).flatten = l.map Prod.fst := by
    intro l
    induction l with
    | nil => rfl
    | cons x xs ih => simp [ih]
  have hs : s = (runes s).map Prod.fst := by
    have h0 := runesFrom_flatten s 0
    simp only [List.drop_zero] at h0
    have h1 : (runes s).map Prod.snd = (runes s).map (fun x => [x.1]) :=
      List.map_congr_left hsnd
    calc s = ((runes s).map Prod.snd).flatten := h0.symm
      _ = ((runes s).map (fun x => [x.1])).flatten := by rw [h1]
      _ = (runes s).map Prod.fst := hfl _
  have hall : ∀ b ∈ s, inClass b = true := by
    intro b hb
    rw [hs] at hb
    obtain ⟨x, hx, rfl⟩ := List.mem_map.1 hb
    exact h x hx
  exact ⟨runesFrom_ascii s (fun b hb => inClass_lt b (hall b hb)), hall⟩

/-- Every byte `sanitizeString` leaves is of the class. -/
theorem sanitizeString_inClass (s : GoString) : ∀ b ∈ sanitizeString s, inClass b = true := by
  intro b hb
  unfold sanitizeString at hb
  rw [replaceRuns_nil] at hb
  simp only [List.mem_flatten, List.mem_map, List.mem_filter] at hb
  obtain ⟨l, ⟨x, ⟨hx, hc⟩, rfl⟩, hb⟩ := hb
  rw [decoded_ascii x (runesFrom_decoded s 0 x hx) (inClass_lt _ hc)] at hb
  simp at hb
  rw [hb]; exact hc

/-- The length of `sanitizeString s` is the number of runes of the class in `s`. -/
theorem sanitizeString_length (s : GoString) :
    (sanitizeString s).length = ((runes s).filter (fun x => inClass x.1)).length := by
  unfold sanitizeString
  rw [replaceRuns_nil]
  have : ∀ l : List (Nat × GoString), (∀ x ∈ l, IsDecoded x) →
      ((l.filter (fun x => inClass x.1)).map Prod.snd).flatten.length =
        (l.filter (fun x => inClass x.1)).length := by
    intro l
    induction l with
    | nil => intro _; rfl
    | cons x xs ih =>
      intro hd
      have ih' := ih (fun y hy => hd y (by simp [hy]))
      by_cases hc : inClass x.1 = true
      · have := decoded_ascii x (hd x (by simp)) (inClass_lt _ hc)
        simp only [List.filter_cons, hc, if_true, List.map_cons, List.flatten_cons,
          List.length_append, List.length_cons, ih', this]
        simp; omega
      · simp only [List.filter_cons, hc]
        simpa using ih'
  exact this _ (runesFrom_decoded s 0)

/-- A string of the class is left unchanged by `sanitizeString`. -/
theorem sanitizeString_of_inClass (s : GoString) (h : ∀ b ∈ s, inClass b = true) :
    sanitizeString s = s := by
  unfold sanitizeString runes
  rw [replaceRuns_nil, runesFrom_ascii s (fun b hb => inClass_lt b (h b hb))]
  induction s with
  | nil => rfl
  | cons b rest ih =>
    have hb : inClass b = true := h b (by simp)
    simp only [List.map_cons, List.filter_cons, hb, if_true, List.flatten_cons]
    rw [ih (fun c hc => h c (by simp [hc]))]
    rfl

/-- On bytes: `validTXT` accepts exactly the strings of 43 bytes of the class. -/
theorem validTXT_bytes (s : GoString) :
    validTXT s = true ↔ s.length = 43 ∧ ∀ b ∈ s, inClass b = true := by
  constructor
  · intro h
    simp only [validTXT, ite_eq_left_iff, not_and, Bool.false_eq_true, imp_false,
      Classical.not_imp, not_not] at h
    obtain ⟨h1, h2⟩ := h
    rw [runeCount_ascii _ (fun b hb => inClass_lt b (sanitizeString_inClass s b hb)),
      sanitizeString_length] at h2
    have hall : ∀ x ∈ runes s, inClass x.1 = true := by
      have hl : ((runes s).filter (fun x => inClass x.1)).length = (runes s).length := by
        rw [h2]; exact h1.symm
      have := List.filter_length_eq_length.1 hl
      exact this
    obtain ⟨hr, hb⟩ := runes_all_inClass s hall
    refine ⟨?_, hb⟩
    have := h1
    unfold RuneCountInString at this
    rw [hr] at this
    simpa using this
  · rintro ⟨hl, hb⟩
    have hlt : ∀ b ∈ s, b < 128 := fun b h => inClass_lt b (hb b h)
    simp [validTXT, sanitizeString_of_inClass s hb, runeCount_ascii s hlt, hl]

/-- C1: `validTXT s` holds exactly when `s` consists of 43 code points, every
one of them in `[A-Za-z0-9_-]`; equivalently when `s` has 43 code points and
`sanitizeString s = s`. So 43 letters `a` are accepted, 42 letters `a` and 43
marks `!` are rejected, and an accepted string with anything more put into it
(an extra disallowed character in particular) is rejected. -/
theorem validTXT_iff_43_of_class (s : GoString) :
    (validTXT s = true ↔ (runes s).length = 43 ∧ ∀ x ∈ runes s, inClass x.1 = true) ∧
    (validTXT s = true ↔ RuneCountInString s = 43 ∧ sanitizeString s = s) ∧
    validTXT (rep 43 97) = true ∧ validTXT (rep 42 97) = false ∧
    validTXT (rep 43 33) = false ∧
    (∀ pre extra post : GoString, validTXT (pre ++ post) = true → extra ≠ [] →
      validTXT (pre ++ extra ++ post) = false) := by
  refine ⟨⟨?_, ?_⟩, ⟨?_, ?_⟩, by decide, by decide, by decide, ?_⟩
  · intro h
    obtain ⟨hl, hb⟩ := (validTXT_bytes s).1 h
    have hr := runesFrom_ascii s (fun b hb' => inClass_lt b (hb b hb'))
    unfold runes
    rw [hr]
    refine ⟨by simpa using hl, ?_⟩
    intro x hx
    obtain ⟨b, hb', rfl⟩ := List.mem_map.1 hx
    exact hb b hb'
  · rintro ⟨hl, hc⟩
    obtain ⟨hr, hb⟩ := runes_all_inClass s hc
    rw [hr] at hl
    exact (validTXT_bytes s).2 ⟨by simpa using hl, hb⟩
  · intro h
    obtain ⟨hl, hb⟩ := (validTXT_bytes s).1 h
    exact ⟨by rw [runeCount_ascii s (fun b hb' => inClass_lt b (hb b hb'))]; exact hl,
      sanitizeString_of_inClass s hb⟩
  · rintro ⟨hl, hs⟩
    have hb : ∀ b ∈ s, inClass b = true := by
      intro b hb
      rw [← hs] at hb
      exact sanitizeString_inClass s b hb
    rw [runeCount_ascii s (fun b hb' => inClass_lt b (hb b hb'))] at hl
    exact (validTXT_bytes s).2 ⟨hl, hb⟩
  · intro pre extra post h he
    obtain ⟨hl, _⟩ := (validTXT_bytes _).1 h
    cases hv : validTXT (pre ++ extra ++ post) with
    | false => rfl
    | true =>
      obtain ⟨hl', _⟩ := (validTXT_bytes _).1 hv
      have : 0 < extra.length := List.length_pos.2 he
      simp only [List.length_append] at hl hl'
      omega

/-! ## `path.Clean` and the request target -/

/-- Where the inner loop of the `..` case stops: not below `dotdot`, and at
`dotdot` or at a slash. -/
theorem backtrack_spec (out : GoString) (dotdot : Nat) :
    ∀ w : Nat, dotdot ≤ w →
      dotdot ≤ backtrack out dotdot w ∧ backtrack out dotdot w ≤ w ∧
        (backtrack out dotdot w = dotdot ∨ out.getD (backtrack out dotdot w) 0 = 47) := by
  intro w
  induction w with
  | zero => intro h; simp [backtrack]; omega
  | succ w ih =>
    intro h
    unfold backtrack
    split_ifs with hc
    · obtain ⟨h1, h2, h3⟩ := ih (by omega)
      exact ⟨h1, by omega, h3⟩
    · refine ⟨h, le_refl _, ?_⟩
      by_cases hd : w + 1 > dotdot
      · right
        by_contra hne
        exact hc ⟨hd, hne⟩
      · left; omega

/-- The invariant holds when `path.Clean` starts on a rooted path. -/
theorem cleanInv_init_rooted : CleanInv true [47] 1 :=
  ⟨List.chain'_singleton _, fun _ => ⟨rfl, rfl⟩, by simp, fun _ => ⟨rfl, rfl⟩,
    fun _ => ⟨rfl, le_refl _⟩⟩

/-- The invariant holds when `path.Clean` starts on a path that is not rooted. -/
theorem cleanInv_init : CleanInv false [] 0 :=
  ⟨List.chain'_nil, fun h => by simp at h, by simp, fun h => by simp at h,
    fun h => by simp at h⟩

/-- The `..` case that backtracks keeps the invariant. -/
theorem cleanInv_backtrack (rooted : Bool) (out : GoString) (dotdot : Nat)
    (h : CleanInv rooted out dotdot) (hlen : out.length > dotdot) :
    CleanInv rooted (out.take (backtrack out dotdot (out.length - 1))) dotdot := by
  obtain ⟨h1, h2, h3⟩ := backtrack_spec out dotdot (out.length - 1) (by omega)
  generalize backtrack out dotdot (out.length - 1) = w at h1 h2 h3
  have hw : w < out.length := by omega
  refine ⟨h.chain.take w, ?_, by simp; omega, ?_, ?_⟩
  · intro hl
    rcases h3 with rfl | h3
    · obtain ⟨hr, hd⟩ := h.stop hl
      refine ⟨hr, ?_⟩
      obtain ⟨hh, _⟩ := h.root hr
      subst hd
      cases out with
      | nil => simp at hh
      | cons a t => simp at hh; simp [hh]
    · exfalso
      have hsplit := List.take_append_drop w out
      have hc := h.chain
      rw [← hsplit, List.chain'_append] at hc
      have hhead : (out.drop w).head? = some 47 := by
        rw [List.head?_drop, List.getElem?_eq_getElem hw]
        rw [List.getD_eq_getElem?_getD, List.getElem?_eq_getElem hw] at h3
        simpa using h3
      exact hc.2.2 47 hl 47 hhead ⟨rfl, rfl⟩
  · intro hl
    rw [List.take_take, min_eq_left h1] at hl
    exact h.stop hl
  · intro hr
    obtain ⟨hh, hd⟩ := h.root hr
    refine ⟨?_, hd⟩
    cases out with
    | nil => simp at hh
    | cons a t =>
      obtain ⟨n, rfl⟩ : ∃ n, w = n + 1 := ⟨w - 1, by omega⟩
      simpa using hh

/-- The `..` case that appends `..` keeps the invariant. -/
theorem cleanInv_dotdot (out : GoString) (dotdot : Nat)
    (h : CleanInv false out dotdot) :
    CleanInv false ((if out.length > 0 then out ++ [47] else out) ++ [46, 46])
      ((if out.length > 0 then out ++ [47] else out) ++ [46, 46]).length := by
  have hlast : ∀ l : GoString, (l ++ [46, 46]).getLast? = some 46 := by
    intro l; simp [List.getLast?_append]
  refine ⟨?_, ?_, le_refl _, ?_, fun hr => by simp at hr⟩
  · have hne : out.getLast? ≠ some 47 := fun hl => by simpa using (h.last hl).1
    split_ifs with hp
    · rw [List.append_assoc]
      refine List.Chain'.append h.chain (by simp [List.Chain', NotBothSlash]) ?_
      intro x hx y hy
      simp at hy
      subst hy
      intro hxy
      exact hne (by rw [← hxy.1]; exact hx)
    · have : out = [] := by
        cases out with
        | nil => rfl
        | cons a t => simp at hp
      subst this
      simp [List.Chain', NotBothSlash]
  · intro hl; rw [hlast] at hl; simp at hl
  · intro hl; rw [List.take_length, hlast] at hl; simp at hl

/-- A path element holds no slash. -/
theorem takeWhile_not_slash (l : GoString) : ∀ b ∈ l.takeWhile (· ≠ 47), b ≠ 47 := by
  intro b hb
  have := List.mem_takeWhile_imp hb
  simpa using this

/-- A string without slash has no two consecutive slashes. -/
theorem chain_of_no_slash (l : GoString) (h : ∀ b ∈ l, b ≠ 47) : l.Chain' NotBothSlash := by
  induction l with
  | nil => exact List.chain'_nil
  | cons a t ih =>
    refine List.Chain'.cons' (ih (fun b hb => h b (by simp [hb]))) ?_
    intro y _ hxy
    exact h a (by simp) hxy.1

/-- Copying a path element keeps the invariant. -/
theorem cleanInv_elem (rooted : Bool) (out : GoString) (dotdot c : Nat) (rest : GoString)
    (h : CleanInv rooted out dotdot) (hc : c ≠ 47) :
    CleanInv rooted
      ((if (rooted && out.length != 1) || (!rooted && out.length != 0) then out ++ [47]
        else out) ++ (c :: rest).takeWhile (· ≠ 47)) dotdot := by
  have htw : (c :: rest).takeWhile (· ≠ 47) = c :: rest.takeWhile (· ≠ 47) := by
    simp [List.takeWhile_cons, hc]
  have hns := takeWhile_not_slash (c :: rest)
  rw [htw] at hns ⊢
  generalize rest.takeWhile (· ≠ 47) = el at hns
  have hlastel : ∀ l : GoString, (l ++ c :: el).getLast? ≠ some 47 := by
    intro l hl
    rw [List.getLast?_append_of_ne_nil _ (by simp)] at hl
    have := List.mem_of_getLast?_eq_some hl
    exact hns 47 this rfl
  have hne : ((rooted && out.length != 1) || (!rooted && out.length != 0)) = true →
      out.getLast? ≠ some 47 := by
    intro hcond hl
    obtain ⟨hr, ho⟩ := h.last hl
    subst hr ho
    simp at hcond
  have hlen : out.length ≤ (if (rooted && out.length != 1) || (!rooted && out.length != 0)
      then out ++ [47] else out).length := by
    split_ifs <;> simp
  have hpre : out <+: (if (rooted && out.length != 1) || (!rooted && out.length != 0)
      then out ++ [47] else out) := by
    split_ifs
    · exact List.prefix_append _ _
    · exact List.prefix_rfl
  obtain ⟨suf, hsuf⟩ := hpre
  refine ⟨?_, fun hl => absurd hl (hlastel _), ?_, ?_, ?_⟩
  · split_ifs with hcond
    · rw [List.append_assoc]
      refine List.Chain'.append h.chain ?_ ?_
      · refine List.Chain'.cons' (chain_of_no_slash _ hns) ?_
        intro y hy hxy
        simp at hy
        exact hc (hy ▸ hxy.2)
      · intro x hx y hy hxy
        exact hne hcond (by rw [← hxy.1]; exact hx)
    · refine List.Chain'.append h.chain (chain_of_no_slash _ hns) ?_
      intro x _ y hy hxy
      simp at hy
      exact hc (hy ▸ hxy.2)
  · rw [List.length_append]
    have := h.le
    omega
  · intro hl
    rw [← hsuf, List.append_assoc, List.take_append_of_le_length h.le] at hl
    exact h.stop hl
  · intro hr
    obtain ⟨hh, hd⟩ := h.root hr
    refine ⟨?_, hd⟩
    rw [← hsuf, List.append_assoc]
    cases out with
    | nil => simp at hh
    | cons a t => simpa using hh

/-- One more unit of fuel than the bytes left to read changes nothing: the
loop of `path.Clean` never runs out of fuel. -/
theorem cleanLoop_fuel (rooted : Bool) :
    ∀ (fuel : Nat) (path out : GoString) (dotdot : Nat), path.length ≤ fuel →
      cleanLoop rooted (fuel + 1) path out dotdot = cleanLoop rooted fuel path out dotdot := by
  intro fuel
  induction fuel with
  | zero =>
    intro path out dotdot h
    have : path = [] := List.length_eq_zero.1 (by omega)
    subst this
    simp [cleanLoop]
  | succ n ih =>
    intro path out dotdot h
    cases path with
    | nil => simp [cleanLoop]
    | cons c rest =>
      have hr : rest.length ≤ n := by simpa using h
      have ht : rest.tail.length ≤ n := by simp; omega
      by_cases hc : c = 47
      · rw [cleanLoop]
        conv_rhs => rw [cleanLoop]
        simp only [hc, if_true]
        exact ih _ _ _ hr
      · have hd : ((c :: rest).dropWhile (· ≠ 47)).length ≤ n := by
          have hs : (c :: rest).dropWhile (· ≠ 47) <:+ rest := by
            rw [List.dropWhile_cons_of_pos (by simpa using hc)]
            exact List.dropWhile_suffix _
          exact le_trans hs.length_le hr
        rw [cleanLoop]
        conv_rhs => rw [cleanLoop]
        simp only [ih _ _ _ hr, ih _ _ _ ht, ih _ _ _ hd]

/-- The loop of `path.Clean` keeps its invariant, whatever it reads. -/
theorem cleanLoop_inv (rooted : Bool) :
    ∀ (fuel : Nat) (path out : GoString) (dotdot : Nat), CleanInv rooted out dotdot →
      ∃ dotdot1, CleanInv rooted (cleanLoop rooted fuel path out dotdot) dotdot1 := by
  intro fuel
  induction fuel with
  | zero => intro path out dotdot h; exact ⟨dotdot, by simpa [cleanLoop] using h⟩
  | succ n ih =>
    intro path out dotdot h
    cases path with
    | nil => exact ⟨dotdot, by simpa [cleanLoop] using h⟩
    | cons c rest =>
      rw [cleanLoop]
      simp only
      by_cases h1 : c = 47
      · rw [if_pos h1]; exact ih _ _ _ h
      rw [if_neg h1]
      by_cases h2 : c = 46 ∧ (rest = [] ∨ rest.head? = some 47)
      · rw [if_pos h2]; exact ih _ _ _ h
      rw [if_neg h2]
      by_cases h3 : c = 46 ∧ rest.head? = some 46 ∧ (rest.tail = [] ∨ rest.tail.head? = some 47)
      · rw [if_pos h3]
        by_cases h4 : out.length > dotdot
        · rw [if_pos h4]; exact ih _ _ _ (cleanInv_backtrack rooted out dotdot h h4)
        rw [if_neg h4]
        by_cases h5 : (!rooted) = true
        · rw [if_pos h5]
          have hr : rooted = false := by simpa using h5
          subst hr
          exact ih _ _ _ (cleanInv_dotdot out dotdot h)
        · rw [if_neg h5]; exact ih _ _ _ h
      · rw [if_neg h3]
        exact ih _ _ _ (cleanInv_elem rooted out dotdot c rest h h1)

/-- The bytes of `update`. -/
theorem lit_update : lit "update" = [117, 112, 100, 97, 116, 101] := by decide

/-- A path element ends at the first slash. -/
theorem takeWhile_append_slash (l t : GoString) :
    (l ++ 47 :: t).takeWhile (· ≠ 47) = l.takeWhile (· ≠ 47) := by
  induction l with
  | nil => simp
  | cons a l ih =>
    by_cases ha : a = 47
    · subst ha; simp
    · have hp : decide (a ≠ 47) = true := by simpa using ha
      rw [List.cons_append, List.takeWhile_cons_of_pos (p := fun x => decide (x ≠ 47)) hp,
        List.takeWhile_cons_of_pos (p := fun x => decide (x ≠ 47)) hp, ih]

/-- What follows a path element starts at the first slash. -/
theorem dropWhile_append_slash (l t : GoString) :
    (l ++ 47 :: t).dropWhile (· ≠ 47) = l.dropWhile (· ≠ 47) ++ 47 :: t := by
  induction l with
  | nil => simp
  | cons a l ih =>
    by_cases ha : a = 47
    · subst ha; simp
    · have hp : decide (a ≠ 47) = true := by simpa using ha
      rw [List.cons_append, List.dropWhile_cons_of_pos (p := fun x => decide (x ≠ 47)) hp,
        List.dropWhile_cons_of_pos (p := fun x => decide (x ≠ 47)) hp, ih]

/-- The last iterations of the loop on a path left with `/update`. -/
theorem cleanLoop_last (rooted : Bool) (k : Nat) (out : GoString) (dotdot : Nat) :
    cleanLoop rooted (k + 3) [47, 117, 112, 100, 97, 116, 101] out dotdot =
      (if (rooted && out.length != 1) || (!rooted && out.length != 0) then out ++ [47]
        else out) ++ [117, 112, 100, 97, 116, 101] := rfl

/-- When the path ends in `/update`, the cleaned buffer is `update` or ends
in `/update`. -/
theorem cleanLoop_update (rooted : Bool) :
    ∀ (fuel : Nat) (path out : GoString) (dotdot : Nat), CleanInv rooted out dotdot →
      (path ++ 47 :: lit "update").length ≤ fuel →
      cleanLoop rooted fuel (path ++ 47 :: lit "update") out dotdot = lit "update" ∨
        47 :: lit "update" <:+ cleanLoop rooted fuel (path ++ 47 :: lit "update") out dotdot := by
  intro fuel
  induction fuel with
  | zero => intro path out dotdot _ hf; simp at hf
  | succ n ih =>
    intro path out dotdot h hf
    cases path with
    | nil =>
      obtain ⟨k, rfl⟩ : ∃ k, n = k + 2 := ⟨n - 2, by simp [lit_update] at hf; omega⟩
      rw [lit_update]
      rw [List.nil_append, cleanLoop_last]
      by_cases hc : ((rooted && out.length != 1) || (!rooted && out.length != 0)) = true
      · rw [if_pos hc]
        right
        rw [List.append_assoc]
        exact List.suffix_append _ _
      · rw [if_neg hc]
        cases rooted with
        | true =>
          have hl : out.length = 1 := by simpa using hc
          obtain ⟨hh, _⟩ := h.root rfl
          obtain ⟨a, rfl⟩ := List.length_eq_one.1 hl
          simp at hh
          subst hh
          right
          exact List.suffix_rfl
        | false =>
          have hl : out.length = 0 := by simpa using hc
          have : out = [] := List.length_eq_zero.1 hl
          subst this
          left; rfl
    | cons c rest =>
      have hlen : (rest ++ 47 :: lit "update").length ≤ n := by simpa using hf
      rw [List.cons_append, cleanLoop]
      simp only
      by_cases h1 : c = 47
      · rw [if_pos h1]; exact ih _ _ _ h hlen
      rw [if_neg h1]
      by_cases h2 : c = 46 ∧ (rest ++ 47 :: lit "update" = [] ∨
          (rest ++ 47 :: lit "update").head? = some 47)
      · rw [if_pos h2]; exact ih _ _ _ h hlen
      rw [if_neg h2]
      by_cases h3 : c = 46 ∧ (rest ++ 47 :: lit "update").head? = some 46 ∧
          ((rest ++ 47 :: lit "update").tail = [] ∨
            (rest ++ 47 :: lit "update").tail.head? = some 47)
      · rw [if_pos h3]
        obtain ⟨-, hh, -⟩ := h3
        cases rest with
        | nil => simp at hh
        | cons d rest1 =>
          have hl1 : (rest1 ++ 47 :: lit "update").length ≤ n := by
            simp at hlen ⊢; omega
          rw [List.cons_append, List.tail_cons]
          by_cases h4 : out.length > dotdot
          · rw [if_pos h4]
            exact ih _ _ _ (cleanInv_backtrack rooted out dotdot h h4) hl1
          rw [if_neg h4]
          by_cases h5 : (!rooted) = true
          · rw [if_pos h5]
            have hr : rooted = false := by simpa using h5
            subst hr
            exact ih _ _ _ (cleanInv_dotdot out dotdot h) hl1
          · rw [if_neg h5]; exact ih _ _ _ h hl1
      · rw [if_neg h3]
        have hd : (c :: (rest ++ 47 :: lit "update")).dropWhile (· ≠ 47) =
            (c :: rest).dropWhile (· ≠ 47) ++ 47 :: lit "update" := by
          rw [← List.cons_append, dropWhile_append_slash]
        have ht : (c :: (rest ++ 47 :: lit "update")).takeWhile (· ≠ 47) =
            (c :: rest).takeWhile (· ≠ 47) := by
          rw [← List.cons_append, takeWhile_append_slash]
        rw [hd, ht]
        refine ih _ _ _ (cleanInv_elem rooted out dotdot c rest h h1) ?_
        have hs : (c :: rest).dropWhile (· ≠ 47) <:+ rest := by
          rw [List.dropWhile_cons_of_pos (by simpa using h1)]
          exact List.dropWhile_suffix _
        have := hs.length_le
        simp only [List.length_append] at hlen ⊢
        omega

/-- In a string whose neighbouring bytes are never both slashes, `//` does not
occur. -/
theorem not_infix_of_chain (s : GoString) (h : s.Chain' NotBothSlash) : ¬ (lit "//" <:+: s) := by
  intro hi
  have := h.infix hi
  have h2 : lit "//" = [47, 47] := by decide
  rw [h2, List.chain'_pair] at this
  exact this ⟨rfl, rfl⟩

/-- The result of `path.Clean` never holds two consecutive slashes. -/
theorem Clean_chain (path : GoString) : (Clean path).Chain' NotBothSlash := by
  unfold Clean
  split_ifs with h0
  · exact List.chain'_singleton _
  · simp only
    by_cases hr : (path.head? == some 47) = true
    · rw [if_pos hr]
      obtain ⟨d, hd⟩ := cleanLoop_inv true path.length path.tail [47] 1 cleanInv_init_rooted
      split_ifs
      · exact List.chain'_singleton _
      · exact hd.chain
    · rw [if_neg hr]
      obtain ⟨d, hd⟩ := cleanLoop_inv false path.length path [] 0 cleanInv_init
      split_ifs
      · exact List.chain'_singleton _
      · exact hd.chain

/-- Cleaning a path that ends in `/update` gives `update` or a path ending in
`/update`. -/
theorem Clean_update (e : GoString) :
    Clean (e ++ 47 :: lit "update") = lit "update" ∨
      47 :: lit "update" <:+ Clean (e ++ 47 :: lit "update") := by
  have hne : ∀ l : GoString, (l = lit "update" ∨ 47 :: lit "update" <:+ l) → ¬ l.length = 0 := by
    intro l hl h0
    have : l = [] := List.length_eq_zero.1 h0
    subst this
    rcases hl with hl | hl
    · exact absurd hl (by decide)
    · have := hl.length_le
      simp [lit_update] at this
  unfold Clean
  rw [if_neg (by simp)]
  simp only
  by_cases hr : ((e ++ 47 :: lit "update").head? == some 47) = true
  · rw [if_pos hr]
    have hfuel : ((e ++ 47 :: lit "update").tail).length ≤ (e ++ 47 :: lit "update").length := by
      simp
    cases e with
    | nil =>
      decide
    | cons c e1 =>
      have h := cleanLoop_update true ((c :: e1) ++ 47 :: lit "update").length
        e1 [47] 1 cleanInv_init_rooted (by simp)
      rw [List.cons_append, List.tail_cons]
      rw [List.cons_append] at h
      rw [if_neg (hne _ h)]
      exact h
  · rw [if_neg hr]
    have h := cleanLoop_update false (e ++ 47 :: lit "update").length
      e [] 0 cleanInv_init (le_refl _)
    rw [if_neg (hne _ h)]
    exact h

/-- What `path.Join(endpoint, "update")` cleans. -/
theorem Join_update (endpoint : GoString) :
    Join [endpoint, lit "update"] =
      if endpoint = [] then lit "update" else Clean (endpoint ++ 47 :: lit "update") := by
  have hsize : ¬ ((([endpoint, lit "update"] : List GoString).map List.length).sum = 0) := by
    simp [lit_update]
  unfold Join
  simp only
  rw [if_neg hsize]
  cases endpoint with
  | nil => decide
  | cons c e => simp [lit_update]

/-- The target `path.Join(endpoint, "update")` never holds `//`. -/
theorem Join_update_no_slash_pair (endpoint : GoString) :
    ¬ (lit "//" <:+: Join [endpoint, lit "update"]) := by
  rw [Join_update]
  split_ifs
  · decide
  · exact not_infix_of_chain _ (Clean_chain _)

/-- C10, amended: for every endpoint the target `path.Join(endpoint, "update")`
holds no two consecutive slashes, and it is `update` or ends in `/update`; for
the endpoint `https://example.com/base/` it is `https:/example.com/base/update`. -/
theorem Join_update_no_double_slash (endpoint : GoString) :
    ¬ (lit "//" <:+: Join [endpoint, lit "update"]) ∧
    (Join [endpoint, lit "update"] = lit "update" ∨
      lit "/update" <:+ Join [endpoint, lit "update"]) ∧
    Join [lit "https://example.com/base/", lit "update"] =
      lit "https:/example.com/base/update" := by
  have hsu : lit "/update" = 47 :: lit "update" := by decide
  refine ⟨?_, ?_, by decide⟩
  · rw [Join_update]
    split_ifs
    · decide
    · exact not_infix_of_chain _ (Clean_chain _)
  · rw [Join_update, hsu]
    split_ifs
    · exact Or.inl rfl
    · exact Clean_update endpoint

/-- C10 as first stated fails for the empty endpoint: the target is `update`,
which does not end in `/update`. -/
theorem Join_update_empty_endpoint :
    Join [[], lit "update"] = lit "update" ∧
      ¬ (lit "/update" <:+ Join [[], lit "update"]) := by
  decide

/-! ## The JSON body -/

/-- Reading a digit of `hex` gives its index. -/
theorem hexVal_hexDigit (i : Nat) (h : i < 16) : hexVal (hexDigit i) = some i := by
  unfold hexVal hexDigit
  split_ifs <;> first | omega | (congr 1; omega)

/-- Reading an unescaped byte. -/
theorem unescape_plain (c : Nat) (t : GoString) (h1 : c ≠ 34) (h2 : c ≠ 92) (h3 : 0x20 ≤ c) :
    unescape (c :: t) = (unescape t).map (c :: ·) := by
  rw [unescape.eq_def]
  simp only
  rw [if_neg h1, if_neg h2, if_neg (by omega)]

/-- Reading a two-character escape. -/
theorem unescape_simple (e b : Nat) (t : GoString) (h : simpleEscape e = some b) :
    unescape (92 :: e :: t) = (unescape t).map (b :: ·) := by
  have he : e ≠ 117 := by
    rintro rfl
    simp [simpleEscape] at h
  rw [unescape.eq_def]
  simp only
  rw [if_neg (by decide), if_pos trivial]
  split
  · rename_i heq
    simp at heq
  · rename_i heq
    simp only [List.cons.injEq] at heq
    exact absurd heq.1 he
  · rename_i heq
    simp only [List.cons.injEq] at heq
    obtain ⟨rfl, rfl⟩ := heq
    rw [h]

/-- Reading a `\uXXXX` escape. -/
theorem unescape_u (h1 h2 h3 h4 a b c d : Nat) (t : GoString)
    (e1 : hexVal h1 = some a) (e2 : hexVal h2 = some b) (e3 : hexVal h3 = some c)
    (e4 : hexVal h4 = some d)
    (hs : ¬ (0xD800 ≤ ((a * 16 + b) * 16 + c) * 16 + d ∧
      ((a * 16 + b) * 16 + c) * 16 + d ≤ 0xDFFF)) :
    unescape (92 :: 117 :: h1 :: h2 :: h3 :: h4 :: t) =
      (unescape t).map (encodeBMP (((a * 16 + b) * 16 + c) * 16 + d) ++ ·) := by
  rw [unescape.eq_def]
  simp only
  rw [if_neg (by decide), if_pos trivial]
  simp only [e1, e2, e3, e4]
  rw [if_neg hs]

/-- Reading bytes of a multi-byte sequence copies them. -/
theorem unescape_copy (bs t : GoString) (h : ∀ b ∈ bs, 128 ≤ b) :
    unescape (bs ++ t) = (unescape t).map (bs ++ ·) := by
  induction bs with
  | nil => simp
  | cons b bs ih =>
    have hb : 128 ≤ b := h b (by simp)
    rw [List.cons_append, unescape_plain b _ (by omega) (by omega) (by omega),
      ih (fun c hc => h c (by simp [hc]))]
    cases unescape t <;> simp

/-- Reading back what `appendString` writes for one rune gives the bytes of
the rune, or U+FFFD for an invalid byte. -/
theorem unescape_encodeRune (x : Nat × GoString) (hx : IsDecoded x) (t : GoString) :
    unescape (encodeRune x.1 x.2 ++ t) = (unescape t).map (coerceRune x ++ ·) := by
  obtain ⟨b, rest, rfl⟩ := hx
  rcases decode_cases b rest with ⟨hb, e⟩ | ⟨hb, e⟩ | ⟨s1, r, rfl, h1, h2, h3, h4, e⟩ |
    ⟨s1, s2, r, rfl, h1, h2, h3, h4, h5, h6, h7, e⟩ |
    ⟨s1, s2, s3, r, rfl, h1, h2, h3, h4, h5, h6, h7, h8, h9, e⟩
  · -- an ASCII byte
    rw [e]
    have hco : coerceRune (b, List.take 1 (b :: rest)) = [b] := by
      simp [coerceRune, RuneError]; omega
    rw [hco]
    simp only [List.take_succ_cons, List.take_zero, encodeRune, hb, if_true]
    by_cases hsafe : htmlSafeSet b = true
    · rw [if_pos hsafe]
      simp only [htmlSafeSet, Bool.and_eq_true, decide_eq_true_eq, bne_iff_ne, ne_eq] at hsafe
      exact unescape_plain b t (by omega) (by omega) (by omega)
    rw [if_neg hsafe]
    by_cases hq : b = 92 ∨ b = 34
    · rw [if_pos hq]
      rcases hq with rfl | rfl
      · exact unescape_simple 92 92 t (by decide)
      · exact unescape_simple 34 34 t (by decide)
    rw [if_neg hq]
    by_cases h8 : b = 8
    · rw [if_pos h8]; subst h8; exact unescape_simple 98 8 t (by decide)
    rw [if_neg h8]
    by_cases h12 : b = 12
    · rw [if_pos h12]; subst h12; exact unescape_simple 102 12 t (by decide)
    rw [if_neg h12]
    by_cases h10 : b = 10
    · rw [if_pos h10]; subst h10; exact unescape_simple 110 10 t (by decide)
    rw [if_neg h10]
    by_cases h13 : b = 13
    · rw [if_pos h13]; subst h13; exact unescape_simple 114 13 t (by decide)
    rw [if_neg h13]
    by_cases h9 : b = 9
    · rw [if_pos h9]; subst h9; exact unescape_simple 116 9 t (by decide)
    rw [if_neg h9]
    have hx1 : hexVal 48 = some 0 := by decide
    have := unescape_u 48 48 (hexDigit (b / 16)) (hexDigit (b % 16)) 0 0 (b / 16) (b % 16) t
      hx1 hx1 (hexVal_hexDigit _ (by omega)) (hexVal_hexDigit _ (by omega)) (by omega)
    rw [List.cons_append, List.cons_append, List.cons_append, List.cons_append,
      List.cons_append, List.cons_append, List.nil_append, this]
    have hv : ((0 * 16 + 0) * 16 + b / 16) * 16 + b % 16 = b := by omega
    rw [hv]
    simp [encodeBMP, hb]
  · -- an invalid byte
    rw [e]
    have hco : coerceRune (RuneError, List.take 1 (b :: rest)) = [0xEF, 0xBF, 0xBD] := by
      simp [coerceRune]
    rw [hco]
    have hen : encodeRune RuneError (List.take 1 (b :: rest)) = lit "\\ufffd" := by
      simp [encodeRune]
      omega
    rw [hen]
    have hl : lit "\\ufffd" = [92, 117, 102, 102, 102, 100] := by decide
    rw [hl]
    have hf : hexVal 102 = some 15 := by decide
    have hd : hexVal 100 = some 13 := by decide
    have := unescape_u 102 102 102 100 15 15 15 13 t hf hf hf hd (by decide)
    rw [List.cons_append, List.cons_append, List.cons_append, List.cons_append,
      List.cons_append, List.cons_append, List.nil_append, this]
    rfl
  · -- two bytes
    rw [e]
    have hc : b % 32 * 64 + s1 % 64 < 2048 := by omega
    have hco : coerceRune (b % 32 * 64 + s1 % 64, List.take 2 (b :: s1 :: r)) = [b, s1] := by
      simp [coerceRune]
    have hen : encodeRune (b % 32 * 64 + s1 % 64) (List.take 2 (b :: s1 :: r)) = [b, s1] := by
      simp only [List.take_succ_cons, List.take_zero, encodeRune, RuneError]
      rw [if_neg (by omega), if_neg (by omega), if_neg (by omega)]
    rw [hco, hen]
    exact unescape_copy [b, s1] t (by simp; omega)
  · -- three bytes
    rw [e]
    have hco : coerceRune (b % 16 * 4096 + s1 % 64 * 64 + s2 % 64,
        List.take 3 (b :: s1 :: s2 :: r)) = [b, s1, s2] := by
      simp [coerceRune]
    rw [hco]
    by_cases hls : b % 16 * 4096 + s1 % 64 * 64 + s2 % 64 = 0x2028 ∨
        b % 16 * 4096 + s1 % 64 * 64 + s2 % 64 = 0x2029
    · have hen : encodeRune (b % 16 * 4096 + s1 % 64 * 64 + s2 % 64)
          (List.take 3 (b :: s1 :: s2 :: r)) =
          [92, 117, 50, 48, 50, hexDigit ((b % 16 * 4096 + s1 % 64 * 64 + s2 % 64) % 16)] := by
        simp only [List.take_succ_cons, List.take_zero, encodeRune, RuneError]
        rw [if_neg (by omega), if_neg (by omega), if_pos hls]
        rfl
      rw [hen]
      have h2 : hexVal 50 = some 2 := by decide
      have h0 : hexVal 48 = some 0 := by decide
      have := unescape_u 50 48 50
        (hexDigit ((b % 16 * 4096 + s1 % 64 * 64 + s2 % 64) % 16)) 2 0 2
        ((b % 16 * 4096 + s1 % 64 * 64 + s2 % 64) % 16) t h2 h0 h2
        (hexVal_hexDigit _ (by omega)) (by omega)
      rw [List.cons_append, List.cons_append, List.cons_append, List.cons_append,
        List.cons_append, List.cons_append, List.nil_append, this]
      have hb : b = 0xE2 := by omega
      have hs1 : s1 = 0x80 := by omega
      subst hb hs1
      rcases hls with h | h
      · have hs2 : s2 = 0xA8 := by omega
        subst hs2
        rfl
      · have hs2 : s2 = 0xA9 := by omega
        subst hs2
        rfl
    · have hen : encodeRune (b % 16 * 4096 + s1 % 64 * 64 + s2 % 64)
          (List.take 3 (b :: s1 :: s2 :: r)) = [b, s1, s2] := by
        simp only [List.take_succ_cons, List.take_zero, encodeRune, RuneError]
        rw [if_neg (by omega), if_neg (by simp), if_neg hls]
      rw [hen]
      exact unescape_copy [b, s1, s2] t (by simp; omega)
  · -- four bytes
    rw [e]
    have hc : 65536 ≤ b % 8 * 262144 + s1 % 64 * 4096 + s2 % 64 * 64 + s3 % 64 := by omega
    have hco : coerceRune (b % 8 * 262144 + s1 % 64 * 4096 + s2 % 64 * 64 + s3 % 64,
        List.take 4 (b :: s1 :: s2 :: s3 :: r)) = [b, s1, s2, s3] := by
      simp [coerceRune]
    have hen : encodeRune (b % 8 * 262144 + s1 % 64 * 4096 + s2 % 64 * 64 + s3 % 64)
        (List.take 4 (b :: s1 :: s2 :: s3 :: r)) = [b, s1, s2, s3] := by
      simp only [List.take_succ_cons, List.take_zero, encodeRune, RuneError]
      rw [if_neg (by omega), if_neg (by omega), if_neg (by omega)]
    rw [hco, hen]
    exact unescape_copy [b, s1, s2, s3] t (by simp; omega)

/-- Reading back what `appendString` writes for a sequence of runes. -/
theorem unescape_encoded (rs : List (Nat × GoString)) (h : ∀ x ∈ rs, IsDecoded x) :
    unescape ((rs.map (fun x => encodeRune x.1 x.2)).flatten ++ [34]) =
      some ((rs.map coerceRune).flatten) := by
  induction rs with
  | nil => rfl
  | cons x rs ih =>
    rw [List.map_cons, List.flatten_cons, List.append_assoc,
      unescape_encodeRune x (h x (by simp)), ih (fun y hy => h y (by simp [hy]))]
    rfl

/-- The literal `appendString` writes denotes the string it was given, with
each invalid byte replaced by U+FFFD. -/
theorem jsonStringValue_appendString (s : GoString) :
    jsonStringValue (appendString s) = some (coerceUTF8 s) := by
  unfold appendString jsonStringValue coerceUTF8
  simp only [List.singleton_append, List.cons_append]
  exact unescape_encoded (runes s) (runesFrom_decoded s 0)

/-- Coercion leaves a valid string unchanged. -/
theorem coerceUTF8_of_valid (s : GoString) (h : ValidString s = true) : coerceUTF8 s = s := by
  unfold coerceUTF8
  have hco : ∀ x ∈ runes s, coerceRune x = x.2 := by
    intro x hx
    unfold ValidString at h
    have := List.all_eq_true.1 h x hx
    unfold coerceRune
    rw [if_neg]
    intro hc
    simp [hc.1, hc.2] at this
  rw [List.map_congr_left hco]
  have := runesFrom_flatten s 0
  simpa using this

/-- A string of the class is written between quotes with no escape. -/
theorem appendString_of_inClass (v : GoString) (h : ∀ b ∈ v, inClass b = true) :
    appendString v = 34 :: v ++ [34] := by
  unfold appendString runes
  rw [runesFrom_ascii v (fun b hb => inClass_lt b (h b hb))]
  have : ∀ l : GoString, (∀ b ∈ l, inClass b = true) →
      ((l.map (fun b => (b, [b]))).map (fun x => encodeRune x.1 x.2)).flatten = l := by
    intro l
    induction l with
    | nil => intro _; rfl
    | cons b l ih =>
      intro hl
      have hb := hl b (by simp)
      have hlt := inClass_lt b hb
      have hsafe : htmlSafeSet b = true := by
        simp only [inClass, Bool.or_eq_true, Bool.and_eq_true, decide_eq_true_eq,
          beq_iff_eq] at hb
        simp only [htmlSafeSet, Bool.and_eq_true, decide_eq_true_eq, bne_iff_ne, ne_eq]
        omega
      have he : encodeRune b [b] = [b] := by
        simp only [encodeRune, hlt, if_true, hsafe]
      simp only [List.map_cons, List.flatten_cons, he]
      rw [ih (fun c hc => hl c (by simp [hc]))]
      rfl
  rw [this v h]
  rfl

/-- The body for a value `validTXT` accepts. -/
theorem Marshal_valid (sub v : GoString) (h : validTXT v = true) :
    Marshal { Subdomain := sub, Value := v } =
      lit "\x7b\"subdomain\":" ++ appendString sub ++ lit ",\"txt\":\"" ++ v ++ lit "\"\x7d" := by
  obtain ⟨_, hb⟩ := (validTXT_bytes v).1 h
  unfold Marshal
  simp only [appendString_of_inClass v hb]
  have h1 : lit ",\"txt\":\"" = lit ",\"txt\":" ++ [34] := by decide
  have h2 : lit "\"\x7d" = [34] ++ lit "\x7d" := by decide
  rw [h1, h2]
  simp only [List.append_assoc, List.cons_append, List.nil_append]

/-! ## `updateRecords` -/

/-- The function `strings.HasPrefix` decides the prefix relation. -/
theorem HasPrefix_iff (s pre : GoString) : HasPrefix s pre = true ↔ pre <+: s := by
  unfold HasPrefix
  simp only [Bool.and_eq_true, decide_eq_true_eq]
  constructor
  · rintro ⟨_, h⟩
    rw [← h]; exact List.take_prefix _ _
  · intro h
    exact ⟨h.length_le, List.prefix_iff_eq_take.1 h |>.symm⟩

/-- The error message of `updateRecords` for a status other than 200. -/
theorem Errorf_update (uri sub value status : GoString) :
    Errorf (lit "acme-dns update failed: POST %s, subdomain: %s, value: %s  %s")
      [uri, sub, value, status] =
    lit "acme-dns update failed: POST " ++ uri ++ lit ", subdomain: " ++ sub ++
      lit ", value: " ++ value ++ lit "  " ++ status := by
  simp [Errorf, Sprintf, lit]

/-- The message of the error `fmt.Errorf("not implemented")`. -/
theorem Errorf_not_implemented : Errorf (lit "not implemented") [] = lit "not implemented" := by
  decide

/-- What `updateRecords` does with a batch that passes its checks. -/
theorem updateRecords_valid (net : Net) (p : Provider) (zone : GoString) (rec : Record)
    (hT : rec.Type_ = lit "TXT") (hN : HasPrefix rec.Name (lit "_acme_challenge") = true)
    (hV : validTXT rec.Value = true) :
    updateRecords net p zone [rec] =
      match net.parse (Join [p.Endpoint, lit "update"]) with
      | some err => { records := [], err := some err, sent := [] }
      | none =>
        match net.roundTrip (updateRequest p rec.Value) with
        | .error err => { records := [], err := some err, sent := [updateRequest p rec.Value] }
        | .ok (status, code) =>
          if code ≠ 200 then
            { records := [],
              err := some (lit "acme-dns update failed: POST " ++ lit ", subdomain: " ++
                p.Subdomain ++ lit ", value: " ++ rec.Value ++ lit "  " ++ status),
              sent := [updateRequest p rec.Value] }
          else { records := [rec], err := none, sent := [updateRequest p rec.Value] } := by
  have hN' : HasPrefix rec.Name (lit "_acme_challenge") = true := hN
  simp only [updateRecords, List.length_singleton, ne_eq, not_true_eq_false, if_false, hT, hN',
    hV, Bool.not_true, Bool.false_eq_true, or_self, NewRequestWithContext]
  cases hp : net.parse (Join [p.Endpoint, lit "update"]) with
  | some err => rfl
  | none =>
    simp only [Do, updateRequest]
    generalize net.roundTrip _ = r
    rcases r with err | ⟨status, code⟩
    · rfl
    · simp only [Errorf_update]
      by_cases hc : code = 200
      · simp [hc]
      · simp [hc]

/-- The requests a valid batch makes `updateRecords` send: none when the
target is refused, else the one request it built. -/
theorem updateRecords_valid_sent (net : Net) (p : Provider) (zone : GoString) (rec : Record)
    (hT : rec.Type_ = lit "TXT") (hN : HasPrefix rec.Name (lit "_acme_challenge") = true)
    (hV : validTXT rec.Value = true) :
    (updateRecords net p zone [rec]).sent =
      if net.parse (Join [p.Endpoint, lit "update"]) = none then [updateRequest p rec.Value]
      else [] := by
  rw [updateRecords_valid net p zone rec hT hN hV]
  cases hp : net.parse (Join [p.Endpoint, lit "update"]) with
  | some err => simp
  | none =>
    cases hr : net.roundTrip (updateRequest p rec.Value) with
    | error err => simp
    | ok sc =>
      obtain ⟨status, code⟩ := sc
      by_cases hc : code = 200 <;> simp [hc]

/-- The request a valid batch makes `updateRecords` send, if any, is the one
`updateRequest` describes. -/
theorem mem_sent_valid (net : Net) (p : Provider) (zone : GoString) (rec : Record)
    (req : Request) (hT : rec.Type_ = lit "TXT") (hN : lit "_acme_challenge" <+: rec.Name)
    (hV : validTXT rec.Value = true) (hreq : req ∈ (updateRecords net p zone [rec]).sent) :
    req = updateRequest p rec.Value := by
  rw [updateRecords_valid_sent net p zone rec hT ((HasPrefix_iff _ _).2 hN) hV] at hreq
  split_ifs at hreq
  · simpa using hreq
  · simp at hreq

/-- The headers of the request `updateRecords` builds. -/
theorem updateRequest_header (p : Provider) (v : GoString) :
    (updateRequest p v).Header.Get (lit "content-type") = lit "application/json" ∧
    (updateRequest p v).Header.Get (lit "x-api-user") = p.Username ∧
    (updateRequest p v).Header.Get (lit "x-api-key") = p.Password := by
  have hh : (updateRequest p v).Header =
      [(lit "Content-Type", [lit "application/json"]), (lit "X-Api-User", [p.Username]),
        (lit "X-Api-Key", [p.Password])] := by
    simp only [updateRequest]
    rfl
  rw [hh]
  refine ⟨?_, ?_, ?_⟩ <;> rfl

/-- C2: `updateRecords` answers "not implemented" and sends nothing when the
batch is not exactly one record, or its record is not of type TXT, or its
name does not start with `_acme_challenge`, or its value fails `validTXT`; a
request is sent only for a batch that passes all of this, and is sent for such
a batch once its target is accepted. -/
theorem updateRecords_unsupported (net : Net) (p : Provider) (zone : GoString)
    (records : List Record) :
    ((records.length ≠ 1 ∨ ∃ rec, records = [rec] ∧
        (rec.Type_ ≠ lit "TXT" ∨ ¬ lit "_acme_challenge" <+: rec.Name ∨
          validTXT rec.Value = false)) →
      updateRecords net p zone records =
        { records := [], err := some (lit "not implemented"), sent := [] }) ∧
    ((updateRecords net p zone records).sent ≠ [] →
      ∃ rec, records = [rec] ∧ rec.Type_ = lit "TXT" ∧ lit "_acme_challenge" <+: rec.Name ∧
        validTXT rec.Value = true) ∧
    (∀ rec, records = [rec] → rec.Type_ = lit "TXT" → lit "_acme_challenge" <+: rec.Name →
      validTXT rec.Value = true → net.parse (Join [p.Endpoint, lit "update"]) = none →
      (updateRecords net p zone records).sent.length = 1) := by
  have hbad : (records.length ≠ 1 ∨ ∃ rec, records = [rec] ∧
        (rec.Type_ ≠ lit "TXT" ∨ ¬ lit "_acme_challenge" <+: rec.Name ∨
          validTXT rec.Value = false)) →
      updateRecords net p zone records =
        { records := [], err := some (lit "not implemented"), sent := [] } := by
    rintro (hl | ⟨rec, rfl, hrec⟩)
    · simp only [updateRecords, hl, ne_eq, not_false_eq_true, if_true, Errorf_not_implemented]
    · have hcond : rec.Type_ ≠ lit "TXT" ∨ (!HasPrefix rec.Name (lit "_acme_challenge")) = true ∨
          (!validTXT rec.Value) = true := by
        rcases hrec with h | h | h
        · exact Or.inl h
        · refine Or.inr (Or.inl ?_)
          cases hp : HasPrefix rec.Name (lit "_acme_challenge") with
          | false => rfl
          | true => exact absurd ((HasPrefix_iff _ _).1 hp) h
        · exact Or.inr (Or.inr (by rw [h]; rfl))
      simp only [updateRecords, List.length_singleton, ne_eq, not_true_eq_false, if_false,
        hcond, if_true, Errorf_not_implemented]
  refine ⟨hbad, ?_, ?_⟩
  · intro hs
    by_contra hne
    have hb : records.length ≠ 1 ∨ ∃ rec, records = [rec] ∧
        (rec.Type_ ≠ lit "TXT" ∨ ¬ lit "_acme_challenge" <+: rec.Name ∨
          validTXT rec.Value = false) := by
      by_cases hl : records.length = 1
      · right
        obtain ⟨rec, rfl⟩ := List.length_eq_one.1 hl
        refine ⟨rec, rfl, ?_⟩
        by_contra hc
        push_neg at hc
        exact hne ⟨rec, rfl, hc.1, hc.2.1, by simpa using hc.2.2⟩
      · exact Or.inl hl
    rw [hbad hb] at hs
    exact hs rfl
  · rintro rec rfl hT hN hV hp
    rw [updateRecords_valid_sent net p zone rec hT ((HasPrefix_iff _ _).2 hN) hV, hp]
    simp

/-- C3: for a valid single-record batch whose request is answered with status
200, `updateRecords` returns the input batch and no error. The response body
is not read. -/
theorem updateRecords_status_ok (net : Net) (p : Provider) (zone : GoString) (rec : Record)
    (status : GoString) (req : Request)
    (hT : rec.Type_ = lit "TXT") (hN : lit "_acme_challenge" <+: rec.Name)
    (hV : validTXT rec.Value = true)
    (hsent : (updateRecords net p zone [rec]).sent = [req])
    (h200 : net.roundTrip req = .ok (status, 200)) :
    (updateRecords net p zone [rec]).records = [rec] ∧
      (updateRecords net p zone [rec]).err = none := by
  have hN' := (HasPrefix_iff _ _).2 hN
  rw [updateRecords_valid_sent net p zone rec hT hN' hV] at hsent
  rw [updateRecords_valid net p zone rec hT hN' hV]
  cases hp : net.parse (Join [p.Endpoint, lit "update"]) with
  | some err => rw [hp] at hsent; simp at hsent
  | none =>
    rw [hp] at hsent
    have hreq : updateRequest p rec.Value = req := by simpa using hsent
    rw [hreq, h200]
    simp

/-- C3 at the example record, answered with `200 OK`. -/
theorem updateRecords_status_ok_witness :
    (updateRecords (answering 200 (lit "200 OK")) exampleProvider [] [exampleRecord]).records =
        [exampleRecord] ∧
      (updateRecords (answering 200 (lit "200 OK")) exampleProvider [] [exampleRecord]).err =
        none :=
  updateRecords_status_ok (answering 200 (lit "200 OK")) exampleProvider [] exampleRecord
    (lit "200 OK") (updateRequest exampleProvider exampleRecord.Value)
    (by decide) (by decide) (by decide) (by decide) rfl

/-- C4, at a valid record answered with status 500: the error message has
nothing where the request URI was meant to be. `response.Request.RequestURI`
is empty on a request made by a client, so the message reads `POST ,` and
holds neither the target of the request that was sent nor its path. The rest
of the claim holds for every valid batch answered with a status other than
200: no records are returned, and the message carries the subdomain, the
value and the status line. -/
theorem updateRecords_status_500_message :
    updateRecords (answering 500 (lit "500 Internal Server Error")) exampleProvider []
        [exampleRecord] =
      { records := [],
        err := some (lit ("acme-dns update failed: POST , subdomain: sub, value: " ++
          "aaaaaaaaaaaaaaaaaaaaaaaaaaaaaaaaaaaaaaaaaaa  500 Internal Server Error")),
        sent := [updateRequest exampleProvider exampleRecord.Value] } ∧
    (updateRequest exampleProvider exampleRecord.Value).URL = lit "https:/example.com/update" ∧
    ¬ (lit "/update" <:+: lit ("acme-dns update failed: POST , subdomain: sub, value: " ++
          "aaaaaaaaaaaaaaaaaaaaaaaaaaaaaaaaaaaaaaaaaaa  500 Internal Server Error")) ∧
    (∀ (net : Net) (p : Provider) (zone : GoString) (rec : Record) (status : GoString)
        (code : Nat) (req : Request),
      rec.Type_ = lit "TXT" → lit "_acme_challenge" <+: rec.Name → validTXT rec.Value = true →
      (updateRecords net p zone [rec]).sent = [req] → net.roundTrip req = .ok (status, code) →
      code ≠ 200 →
      (updateRecords net p zone [rec]).records = [] ∧
      (updateRecords net p zone [rec]).err =
        some (lit "acme-dns update failed: POST " ++ lit ", subdomain: " ++ p.Subdomain ++
          lit ", value: " ++ rec.Value ++ lit "  " ++ status)) := by
  refine ⟨by decide, by decide, by decide, ?_⟩
  intro net p zone rec status code req hT hN hV hsent hrt hcode
  have hN1 := (HasPrefix_iff _ _).2 hN
  rw [updateRecords_valid_sent net p zone rec hT hN1 hV] at hsent
  rw [updateRecords_valid net p zone rec hT hN1 hV]
  cases hp : net.parse (Join [p.Endpoint, lit "update"]) with
  | some err => rw [hp] at hsent; simp at hsent
  | none =>
    rw [hp] at hsent
    have hreq : updateRequest p rec.Value = req := by simpa using hsent
    rw [hreq, hrt]
    simp [hcode]

/-- C5, at the endpoints `https://example.com` and `https://example.com/base`:
the request is a POST, but `path.Join` collapses the `//` after the scheme, so
its target is `https:/example.com/update`, not the endpoint followed by
`/update`. The same holds for every endpoint in which `//` occurs. -/
theorem updateRecords_target_collapsed :
    (updateRecords (answering 200 (lit "200 OK")) exampleProvider [] [exampleRecord]).sent.map
        (fun r => (r.Method, r.URL)) = [(lit "POST", lit "https:/example.com/update")] ∧
    lit "https:/example.com/update" ≠ exampleProvider.Endpoint ++ lit "/update" ∧
    Join [lit "https://example.com/base", lit "update"] = lit "https:/example.com/base/update" ∧
    lit "https:/example.com/base/update" ≠ lit "https://example.com/base" ++ lit "/update" ∧
    (∀ endpoint : GoString, lit "//" <:+: endpoint →
      Join [endpoint, lit "update"] ≠ endpoint ++ lit "/update") := by
  refine ⟨by decide, by decide, by decide, by decide, ?_⟩
  intro endpoint hin heq
  apply Join_update_no_slash_pair endpoint
  rw [heq]
  exact hin.trans (List.infix_append' [] endpoint (lit "/update"))

/-- C6, amended: the request `updateRecords` sends for a valid single-record
batch has as body the JSON object with exactly the two fields `subdomain` and
`txt`; the `txt` literal is the record's value verbatim between quotes; the
`subdomain` literal denotes the configured subdomain with every invalid byte
replaced by U+FFFD, hence the subdomain itself when it is valid UTF-8. The
request carries `content-type: application/json`, `x-api-user` with the
username and `x-api-key` with the password. Body and headers are the same
for every zone and every record name. -/
theorem updateRecords_request (net : Net) (p : Provider) (zone : GoString) (rec : Record)
    (req : Request) (hT : rec.Type_ = lit "TXT") (hN : lit "_acme_challenge" <+: rec.Name)
    (hV : validTXT rec.Value = true) (hreq : req ∈ (updateRecords net p zone [rec]).sent) :
    req.Body = lit "\x7b\"subdomain\":" ++ appendString p.Subdomain ++ lit ",\"txt\":\"" ++
      rec.Value ++ lit "\"\x7d" ∧
    jsonStringValue (appendString p.Subdomain) = some (coerceUTF8 p.Subdomain) ∧
    (ValidString p.Subdomain = true → coerceUTF8 p.Subdomain = p.Subdomain) ∧
    req.Header.Get (lit "content-type") = lit "application/json" ∧
    req.Header.Get (lit "x-api-user") = p.Username ∧
    req.Header.Get (lit "x-api-key") = p.Password ∧
    (∀ (zone1 : GoString) (rec1 : Record) (req1 : Request), rec1.Type_ = lit "TXT" →
      lit "_acme_challenge" <+: rec1.Name → rec1.Value = rec.Value →
      req1 ∈ (updateRecords net p zone1 [rec1]).sent →
      req1.Body = req.Body ∧ req1.Header = req.Header) := by
  have hr := mem_sent_valid net p zone rec req hT hN hV hreq
  subst hr
  obtain ⟨h1, h2, h3⟩ := updateRequest_header p rec.Value
  refine ⟨Marshal_valid p.Subdomain rec.Value hV, jsonStringValue_appendString _,
    coerceUTF8_of_valid _, h1, h2, h3, ?_⟩
  intro zone1 rec1 req1 hT1 hN1 hV1 hreq1
  have hr1 := mem_sent_valid net p zone1 rec1 req1 hT1 hN1 (by rw [hV1]; exact hV) hreq1
  rw [hr1, hV1]
  exact ⟨rfl, rfl⟩

/-- C6 (amended) at the example provider and record. -/
theorem updateRecords_request_witness :
    (updateRequest exampleProvider exampleRecord.Value).Body =
      lit ("\x7b\"subdomain\":\"sub\",\"txt\":\"" ++
        "aaaaaaaaaaaaaaaaaaaaaaaaaaaaaaaaaaaaaaaaaaa\"\x7d") ∧
    (updateRequest exampleProvider exampleRecord.Value).Header.Get (lit "x-api-key") =
      lit "secret" := by
  have h := updateRecords_request (answering 200 (lit "200 OK")) exampleProvider []
    exampleRecord (updateRequest exampleProvider exampleRecord.Value) (by decide) (by decide)
    (by decide) (by decide)
  exact ⟨by rw [h.1]; decide, h.2.2.2.2.2.1⟩

/-- C6 as first stated fails for a subdomain that is not valid UTF-8: for the
subdomain of the single byte 0xff the `subdomain` field of the body is the
literal `\ufffd`, which denotes U+FFFD and not the configured subdomain. -/
theorem updateRecords_body_invalid_subdomain :
    (updateRecords (answering 200 (lit "200 OK")) invalidSubdomainProvider []
        [exampleRecord]).sent.map Request.Body =
      [lit "\x7b\"subdomain\":" ++ lit "\"\\ufffd\"" ++ lit (",\"txt\":\"" ++
        "aaaaaaaaaaaaaaaaaaaaaaaaaaaaaaaaaaaaaaaaaaa\"\x7d")] ∧
    jsonStringValue (lit "\"\\ufffd\"") = some [0xEF, 0xBF, 0xBD] ∧
    jsonStringValue (lit "\"\\ufffd\"") ≠ some invalidSubdomainProvider.Subdomain := by
  decide

/-! ## The other methods -/

/-- C8: `GetRecords` returns no records and the error "not implemented", and
sends nothing, whatever the provider and the zone. -/
theorem GetRecords_not_implemented (net : Net) (p : Provider) (zone : GoString) :
    GetRecords net p zone =
      { records := [], err := some (lit "not implemented"), sent := [] } := by
  simp only [GetRecords, Errorf_not_implemented]

/-- C9: `AppendRecords` and `SetRecords` are the same operation: for every
environment, provider, zone and batch they send the same requests and return
the same records and the same error. -/
theorem AppendRecords_eq_SetRecords (net : Net) (p : Provider) (zone : GoString)
    (records : List Record) :
    AppendRecords net p zone records = SetRecords net p zone records ∧
    AppendRecords net p zone records = updateRecords net p zone records := ⟨rfl, rfl⟩

/-- C7: `DeleteRecords` returns no records and no error, and sends nothing,
whatever the provider, the zone and the batch. -/
theorem DeleteRecords_noop (net : Net) (p : Provider) (zone : GoString)
    (records : List Record) :
    DeleteRecords net p zone records = { records := [], err := none, sent := [] } := rfl

end AcmeDns
